import Mathlib

/-!
# Verification of the fastcache cache engine and vector index

A shallow embedding of the Go sources of `atoncooper/fastcache`
(`src/lru.go`, `src/vector.go`, `src/vector_store.go`, the Ristretto-style
cache engine, the TinyLFU frequency estimator and the HNSW index) together
with proofs and refutations of the specification's claims.

Modelling conventions:
* `float32` vector components and scores are embedded as integers (`F32 :=
  Int`).  The claims under examination are ordering and membership claims;
  every concrete input used below is a small integer, on which
  `float32`/`float64` arithmetic is exact, so the integer traces coincide
  with the Go traces.  Theorems about the graph index are additionally
  parametric in the distance function, so they cover every metric the Go
  code can be configured with.
* Go maps are embedded as association lists; where Go iterates a map, the
  model iterates the list in order (one fixed admissible iteration order).
* Go's monotonic clock is an explicit `now : Int` (nanoseconds) parameter.
* Imperative loops are embedded either by structural recursion or with an
  explicit fuel parameter that dominates the loop's iteration count.
-/

/-- The carrier for embedded `float32` values (see the header note). -/
abbrev F32 := Int

/-- `MetricType` from `src/vector.go` (`"l2" | "cosine" | "ip"`). -/
inductive MetricType where
  | l2
  | cosine
  | ip
deriving DecidableEq, Repr

/-- `MaxFloat32` from `src/vector.go`: sentinel for invalid distances. -/
def MaxFloat32 : F32 := 10 ^ 38

/-- The (positive) inner product `Σ a_i · b_i`; used to state ordering claims. -/
def innerProd (v1 v2 : List F32) : F32 :=
  (List.zipWith (· * ·) v1 v2).sum

/-- `IPDistance` from `src/vector.go`: the negated inner product, with the
`MaxFloat32` sentinel on dimension mismatch. -/
def IPDistance (v1 v2 : List F32) : F32 :=
  if v1.length ≠ v2.length then MaxFloat32
  else -(innerProd v1 v2)

/-- `scoredItem` from `src/vector.go`: a stored id paired with its score. -/
structure ScoredItem where
  id : String
  score : F32
deriving DecidableEq, Repr

/-- Swap the entries at positions `i` and `j` of a list (both in bounds in
every use; out-of-range indices leave entries unchanged up to `getD`
defaults, which never occurs on the traces we evaluate). -/
def listSwap (l : List ScoredItem) (i j : Nat) : List ScoredItem :=
  let a := l.getD i ⟨"", 0⟩
  let b := l.getD j ⟨"", 0⟩
  (l.set i b).set j a

/-- One advance of `i` in the partition of `quickSortAsc`/`quickSortDesc`:
`for i <= right && cmp items[i].score pivot { i++ }`.
`cmp` is `<` for the ascending sort and `>` for the descending sort. -/
def qsScanI (items : List ScoredItem) (cmp : F32 → F32 → Bool) (pivot : F32)
    (right : Int) : Nat → Int → Int
  | 0, i => i
  | fuel + 1, i =>
    if i ≤ right ∧ cmp ((items.getD i.toNat ⟨"", 0⟩).score) pivot then
      qsScanI items cmp pivot right fuel (i + 1)
    else i

/-- One retreat of `j` in the partition:
`for j >= left && cmp items[j].score pivot { j-- }`. -/
def qsScanJ (items : List ScoredItem) (cmp : F32 → F32 → Bool) (pivot : F32)
    (left : Int) : Nat → Int → Int
  | 0, j => j
  | fuel + 1, j =>
    if j ≥ left ∧ cmp ((items.getD j.toNat ⟨"", 0⟩).score) pivot then
      qsScanJ items cmp pivot left fuel (j - 1)
    else j

/-- The Hoare partition loop shared by `quickSortAsc` and `quickSortDesc`
(`for i <= j { scan i; scan j; if i <= j swap, i++, j-- }`).
`cmpI`/`cmpJ` are `<`/`>` for ascending and `>`/`<` for descending. -/
def qsPartition (cmpI cmpJ : F32 → F32 → Bool) (pivot : F32) (left right : Int) :
    Nat → List ScoredItem → Int → Int → List ScoredItem × Int × Int
  | 0, items, i, j => (items, i, j)
  | fuel + 1, items, i, j =>
    if i ≤ j then
      let i := qsScanI items cmpI pivot right (items.length + 1) i
      let j := qsScanJ items cmpJ pivot left (items.length + 1) j
      if i ≤ j then
        qsPartition cmpI cmpJ pivot left right fuel
          (listSwap items i.toNat j.toNat) (i + 1) (j - 1)
      else (items, i, j)
    else (items, i, j)

/-- The recursive body shared by `quickSortAsc` and `quickSortDesc` from
`src/vector.go`, with a fuel parameter bounding the recursion depth. -/
def quickSortGo (cmpI cmpJ : F32 → F32 → Bool) :
    Nat → List ScoredItem → Int → Int → List ScoredItem
  | 0, items, _, _ => items
  | fuel + 1, items, left, right =>
    if left ≥ right then items
    else
      let pivot := (items.getD ((left + right) / 2).toNat ⟨"", 0⟩).score
      let (items, i, j) :=
        qsPartition cmpI cmpJ pivot left right (items.length + 1) items left right
      let items := if left < j then quickSortGo cmpI cmpJ fuel items left j else items
      if i < right then quickSortGo cmpI cmpJ fuel items i right else items

/-- `quickSortAsc` from `src/vector.go`: ascending by score. -/
def quickSortAsc (items : List ScoredItem) (left right : Int) : List ScoredItem :=
  quickSortGo (fun a b => a < b) (fun a b => a > b)
    (items.length + right.toNat + 2) items left right

/-- `quickSortDesc` from `src/vector.go`: descending by score. -/
def quickSortDesc (items : List ScoredItem) (left right : Int) : List ScoredItem :=
  quickSortGo (fun a b => a > b) (fun a b => a < b)
    (items.length + right.toNat + 2) items left right

/-- `VectorItem` from `src/vector.go`, reduced to the fields search reads. -/
structure VectorItem where
  id : String
  vector : List F32
deriving DecidableEq, Repr

/-- `SearchResult` from `src/vector.go`, reduced to id and score. -/
structure SearchResult where
  id : String
  score : F32
deriving DecidableEq, Repr

/-- `FlatSearch` from `src/vector.go`: the brute-force index.  The `items`
list models the Go map `id → *VectorItem` in one fixed iteration order; the
`dist` field mirrors the struct's `distance DistanceFunc` member. -/
structure FlatSearch where
  items : List VectorItem
  metric : MetricType
  dist : List F32 → List F32 → F32

/-- `FlatSearch.Search` from `src/vector.go`: score every item, quicksort
(ascending, or descending when the metric is IP), return the first `k`. -/
def flatSearchFn (f : FlatSearch) (query : List F32) (k : Int) : List SearchResult :=
  if f.items.isEmpty then []
  else
    let k := if k ≤ 0 then 10 else k
    let k := if k > (f.items.length : Int) then (f.items.length : Int) else k
    let results := f.items.map (fun it => ScoredItem.mk it.id (f.dist query it.vector))
    let sorted :=
      if f.metric = MetricType.ip then
        quickSortDesc results 0 ((results.length : Int) - 1)
      else
        quickSortAsc results 0 ((results.length : Int) - 1)
    (sorted.take k.toNat).map (fun s => SearchResult.mk s.id s.score)

/-- The concrete Flat IP store of the C2 counterexample: two 1-dimensional
vectors `a = [1]` and `b = [2]`. -/
def c2Store : FlatSearch :=
  { items := [⟨"a", [1]⟩, ⟨"b", [2]⟩], metric := MetricType.ip, dist := IPDistance }

example : flatSearchFn c2Store [1] 2 = [⟨"a", -1⟩, ⟨"b", -2⟩] := by decide

/-! ## LRU store (`src/lru.go`) -/

/-- `CacheItem` from `src/lru.go`.  Values are opaque (`any`) in Go and are
embedded as strings; `expiration = 0` means "never expires". -/
structure CacheItem where
  key : String
  value : String
  cost : Int
  expiration : Int
deriving DecidableEq, Repr

/-- Remove the first item satisfying `p` from a list, returning it and the
remaining list.  This is the embedding of a Go map lookup combined with the
linked-list unlink that every mutation of `LRUCache` performs. -/
def extractFirst (p : CacheItem → Bool) : List CacheItem → Option (CacheItem × List CacheItem)
  | [] => none
  | x :: xs =>
    if p x then some (x, xs)
    else
      match extractFirst p xs with
      | none => none
      | some (y, ys) => some (y, x :: ys)

/-- `LRUCache` from `src/lru.go`.  The `items` list is the recency list,
head = most recently used; it simultaneously models the `items` map (keys
are unique in every reachable state) and the `list.List`. -/
structure LRUCache where
  items : List CacheItem
  cost : Int
  maxCost : Int
deriving DecidableEq, Repr

/-- `LRUCache.removeElement`: unlink the last (least recently used) item and
subtract its cost; a no-op on an empty store (`list.Back() == nil`). -/
def lruRemoveLast (c : LRUCache) : LRUCache :=
  match c.items.getLast? with
  | none => c
  | some it => { c with items := c.items.dropLast, cost := c.cost - it.cost }

/-- The eviction loop at the end of `LRUCache.Add`:
`for c.cost > c.maxCost && c.list.Len() > 0 { c.evictOldest() }`, with a
fuel parameter; `fuel = items.length` always suffices because each round
removes one item. -/
def lruEvictLoop : Nat → LRUCache → LRUCache
  | 0, c => c
  | fuel + 1, c =>
    if c.cost > c.maxCost ∧ c.items ≠ [] then lruEvictLoop fuel (lruRemoveLast c)
    else c

/-- `LRUCache.Add` from `src/lru.go`: update in place and move to front if
the key is present, else push a fresh entry at the front and evict from the
tail while over budget. -/
def lruAdd (c : LRUCache) (key value : String) (cost expiration : Int) : LRUCache :=
  match extractFirst (fun it => it.key == key) c.items with
  | some (item, rest) =>
    { c with
      cost := c.cost - item.cost + cost,
      items := { key := key, value := value, cost := cost, expiration := expiration } :: rest }
  | none =>
    let c' : LRUCache :=
      { c with
        items := { key := key, value := value, cost := cost, expiration := expiration } :: c.items,
        cost := c.cost + cost }
    lruEvictLoop c'.items.length c'

/-- `LRUCache.GetAndUpdate` from `src/lru.go`: on a hit move the item to the
front; if the item is expired at `now`, remove it and report a miss. -/
def lruGetAndUpdate (c : LRUCache) (key : String) (now : Int) :
    Option CacheItem × LRUCache :=
  match extractFirst (fun it => it.key == key) c.items with
  | none => (none, c)
  | some (item, rest) =>
    if item.expiration > 0 ∧ now > item.expiration then
      (none, { c with items := rest, cost := c.cost - item.cost })
    else
      (some item, { c with items := item :: rest })

/-- `LRUCache.Delete` from `src/lru.go`: detach the item, returning its
prior value when present. -/
def lruDelete (c : LRUCache) (key : String) : Option String × LRUCache :=
  match extractFirst (fun it => it.key == key) c.items with
  | none => (none, c)
  | some (item, rest) =>
    (some item.value, { c with items := rest, cost := c.cost - item.cost })

/-! ## Frequency estimator (`Frequency`, TinyLFU) -/

/-- One entry of the `counters` map of `Frequency`. -/
structure FreqCounter where
  key : String
  count : Int
deriving DecidableEq, Repr

/-- `Frequency`: TinyLFU-style approximate counters with periodic decay.
The `counters` list models the Go map in one fixed iteration order. -/
structure Frequency where
  counters : List FreqCounter
  windowSize : Int
  maxCounters : Int
  totalHits : Int
  decayCounter : Int
deriving DecidableEq, Repr

/-- `NewFrequency`. -/
def newFrequency (numCounters : Int) : Frequency :=
  let numCounters := if numCounters ≤ 0 then 10 ^ 6 else numCounters
  { counters := [], windowSize := numCounters, maxCounters := numCounters,
    totalHits := 0, decayCounter := 0 }

/-- `Frequency.evictOne`: delete some counter with count 1, else delete an
arbitrary one (the model deletes the first in iteration order). -/
def freqEvictOne (f : Frequency) : Frequency :=
  match f.counters.find? (fun c => c.count == 1) with
  | some c => { f with counters := f.counters.filter (fun d => d.key ≠ c.key) }
  | none =>
    match f.counters with
    | [] => f
    | c :: _ => { f with counters := f.counters.filter (fun d => d.key ≠ c.key) }

/-- `Frequency.decay`: reset the decay counter and halve every count. -/
def freqDecay (f : Frequency) : Frequency :=
  { f with decayCounter := 0,
           counters := f.counters.map (fun c => { c with count := (c.count + 1) / 2 }) }

/-- `Frequency.Increment`.  Note the early return on the new-key path: it
inserts with count 1 and does not touch the decay counter. -/
def freqIncrement (f : Frequency) (key : String) : Frequency :=
  match f.counters.find? (fun c => c.key == key) with
  | none =>
    let f := if (f.counters.length : Int) ≥ f.maxCounters then freqEvictOne f else f
    { f with counters := f.counters ++ [⟨key, 1⟩], totalHits := f.totalHits + 1 }
  | some _ =>
    let f := { f with
      counters := f.counters.map (fun c => if c.key == key then { c with count := c.count + 1 } else c),
      decayCounter := f.decayCounter + 1 }
    if f.decayCounter ≥ f.windowSize / 10 then freqDecay f else f

/-- `Frequency.Get`. -/
def freqGet (f : Frequency) (key : String) : Int :=
  match f.counters.find? (fun c => c.key == key) with
  | some c => c.count
  | none => 0

/-! ## Cache engine (`RistrettoCache`) -/

/-- `setItem`: one queued asynchronous set. -/
structure SetItem where
  key : String
  value : String
  cost : Int
  expiration : Int
deriving DecidableEq, Repr

/-- `RistrettoCache`.  `maxCost` is `config.MaxCost`; `queue`/`queueCap`
model the buffered channel `setBuf`; the three `onXConfigured` flags record
whether the corresponding callback is non-nil; the `Int` fields are the
`Metrics` counters. -/
structure RistrettoCache where
  closed : Bool
  maxCost : Int
  lru : LRUCache
  freq : Frequency
  queue : List SetItem
  queueCap : Nat
  hits : Int
  misses : Int
  keysAdded : Int
  keysEvicted : Int
  setsDropped : Int
  setsRejected : Int
  costAdded : Int
  costEvicted : Int
  onEvictConfigured : Bool
  onRejectConfigured : Bool
  onExitConfigured : Bool
deriving DecidableEq, Repr

/-- `NewRistrettoCache` (defaulting logic for the configuration fields). -/
def newRistrettoCache (numCounters maxCost bufferItems : Int)
    (onEvict onReject onExit : Bool) : RistrettoCache :=
  let numCounters := if numCounters ≤ 0 then 10 ^ 7 else numCounters
  let maxCost := if maxCost ≤ 0 then 2 ^ 30 else maxCost
  let bufferItems := if bufferItems ≤ 0 then 64 else bufferItems
  { closed := false, maxCost := maxCost,
    lru := { items := [], cost := 0, maxCost := maxCost },
    freq := newFrequency numCounters,
    queue := [], queueCap := (bufferItems * 10).toNat,
    hits := 0, misses := 0, keysAdded := 0, keysEvicted := 0,
    setsDropped := 0, setsRejected := 0, costAdded := 0, costEvicted := 0,
    onEvictConfigured := onEvict, onRejectConfigured := onReject,
    onExitConfigured := onExit }

/-- Which callbacks a `setWithOptions` call fired. -/
structure CallEvents where
  rejectFired : Bool
  exitFired : Bool
deriving DecidableEq, Repr

/-- `RistrettoCache.setWithOptions`: validate the cost, reject when it
exceeds `maxCost` (firing `onReject`/`onExit` when configured), otherwise
attempt a non-blocking send to the admission queue, dropping when full. -/
def setWithOptions (c : RistrettoCache) (key value : String) (cost expiration : Int) :
    Bool × RistrettoCache × CallEvents :=
  if c.closed then (false, c, ⟨false, false⟩)
  else
    let cost := if cost < 0 then 1 else cost
    let cost := if cost = 0 then 1 else cost
    if cost > c.maxCost then
      (false, { c with setsRejected := c.setsRejected + 1 },
       ⟨c.onRejectConfigured, c.onExitConfigured⟩)
    else if c.queue.length < c.queueCap then
      (true, { c with queue := c.queue ++ [⟨key, value, cost, expiration⟩] }, ⟨false, false⟩)
    else
      (false, { c with setsDropped := c.setsDropped + 1 }, ⟨false, false⟩)

/-- `RistrettoCache.Set` (expiration 0). -/
def rcSet (c : RistrettoCache) (key value : String) (cost : Int) :
    Bool × RistrettoCache × CallEvents :=
  setWithOptions c key value cost 0

/-- `RistrettoCache.SetWithTTL`: a positive TTL becomes `now + ttl`. -/
def rcSetWithTTL (c : RistrettoCache) (key value : String) (cost ttl now : Int) :
    Bool × RistrettoCache × CallEvents :=
  setWithOptions c key value cost (if ttl > 0 then now + ttl else 0)

/-- `RistrettoCache.evictOne`: pop the LRU tail, firing `onEvict`/`onExit`
and accounting `keysEvicted`/`costEvicted`; `nil` (a no-op) when empty. -/
def rcEvictOne (c : RistrettoCache) : RistrettoCache :=
  match c.lru.items.getLast? with
  | none => c
  | some ev =>
    { c with
      lru := { c.lru with items := c.lru.items.dropLast, cost := c.lru.cost - ev.cost },
      keysEvicted := c.keysEvicted + 1, costEvicted := c.costEvicted + ev.cost }

/-- The eviction loop of `processOneSet`:
`for cache.Cost()+cost > MaxCost && cache.Len() > 0 { evictOne }`
(fuel = store size suffices: each round removes one item). -/
def rcEvictToFit : Nat → RistrettoCache → Int → RistrettoCache
  | 0, c, _ => c
  | fuel + 1, c, need =>
    if c.lru.cost + need > c.maxCost ∧ c.lru.items ≠ [] then
      rcEvictToFit fuel (rcEvictOne c) need
    else c

/-- `RistrettoCache.sampleMinFrequency`: scan the first `sampleSize` items
of the store snapshot and return the minimum frequency and its key
(`""` when the store is empty).  `2^63 - 1` is Go's initial `minFreq`. -/
def sampleMinFrequency (c : RistrettoCache) (sampleSize : Nat) : Int × String :=
  let items := c.lru.items
  if items = [] then (0, "")
  else
    (items.take sampleSize).foldl
      (fun (acc : Int × String) it =>
        let fr := freqGet c.freq it.key
        if fr < acc.1 then (fr, it.key) else acc)
      (2 ^ 63 - 1, "")

/-- The first paragraph of `RistrettoCache.processOneSet`: increment the
key's frequency, and when the store is near capacity (`cost > maxCost*7/10`)
and non-empty, apply the TinyLFU sampled-admission policy — delete the
minimum-frequency sampled key when the incoming key's frequency is higher. -/
def processAdmission (c : RistrettoCache) (item : SetItem) : RistrettoCache :=
  let c := { c with freq := freqIncrement c.freq item.key }
  let currentCost := c.lru.cost
  let isNearCapacity := c.maxCost > 0 ∧ currentCost > c.maxCost * 7 / 10
  if isNearCapacity ∧ c.lru.items.length > 0 then
    let currentFreq := freqGet c.freq item.key
    let (minFreq, evictKey) := sampleMinFrequency c 5
    if currentFreq > minFreq ∧ evictKey ≠ "" then
      { c with lru := (lruDelete c.lru evictKey).2 }
    else c
  else c

/-- The second paragraph of `RistrettoCache.processOneSet`: when the item's
cost exceeds the available cost, evict LRU tails until it fits (or the
store is empty). -/
def processEvict (c : RistrettoCache) (item : SetItem) : RistrettoCache :=
  let availCost := c.maxCost - c.lru.cost
  if item.cost > availCost then rcEvictToFit c.lru.items.length c item.cost else c

/-- The third paragraph of `RistrettoCache.processOneSet`: update the
existing entry in place (adjusting cost and recency, firing `onExit` on the
replaced payload), or insert a fresh entry via `LRUCache.Add`. -/
def processStore (c : RistrettoCache) (item : SetItem) : RistrettoCache :=
  match extractFirst (fun it => it.key == item.key) c.lru.items with
  | some (oldItem, rest) =>
    { c with
      lru := { c.lru with
        items := { key := item.key, value := item.value, cost := item.cost,
                   expiration := item.expiration } :: rest,
        cost := c.lru.cost - oldItem.cost + item.cost },
      costAdded := c.costAdded + item.cost }
  | none =>
    { c with
      lru := lruAdd c.lru item.key item.value item.cost item.expiration,
      keysAdded := c.keysAdded + 1, costAdded := c.costAdded + item.cost }

/-- `RistrettoCache.processOneSet`: the admission worker's handling of one
dequeued item, as the composition of its three paragraphs. -/
def processOneSet (c : RistrettoCache) (item : SetItem) : RistrettoCache :=
  processStore (processEvict (processAdmission c item) item) item

/-- `RistrettoCache.Get`: `GetAndUpdate` plus frequency/metrics updates. -/
def rcGet (c : RistrettoCache) (key : String) (now : Int) :
    Option String × RistrettoCache :=
  if c.closed then (none, c)
  else
    match lruGetAndUpdate c.lru key now with
    | (none, lru') => (none, { c with lru := lru', misses := c.misses + 1 })
    | (some item, lru') =>
      (some item.value,
       { c with lru := lru', freq := freqIncrement c.freq key, hits := c.hits + 1 })

/-- `RistrettoCache.GetWithTTL`: like `Get`, additionally returning the
remaining TTL (0 when the entry has no expiration). -/
def rcGetWithTTL (c : RistrettoCache) (key : String) (now : Int) :
    Option (String × Int) × RistrettoCache :=
  if c.closed then (none, c)
  else
    match lruGetAndUpdate c.lru key now with
    | (none, lru') => (none, { c with lru := lru', misses := c.misses + 1 })
    | (some item, lru') =>
      let ttl :=
        if item.expiration > 0 then
          if item.expiration - now < 0 then 0 else item.expiration - now
        else 0
      (some (item.value, ttl),
       { c with lru := lru', freq := freqIncrement c.freq key, hits := c.hits + 1 })

/-- `RistrettoCache.GetTTL`: returns `(ttl, true)` only when the entry is
found by `GetAndUpdate`, has a positive expiration and a non-negative
remaining TTL; `(0, false)` otherwise.  It updates neither the frequency
estimator nor the hit/miss counters. -/
def rcGetTTL (c : RistrettoCache) (key : String) (now : Int) :
    (Int × Bool) × RistrettoCache :=
  match lruGetAndUpdate c.lru key now with
  | (none, lru') => ((0, false), { c with lru := lru' })
  | (some item, lru') =>
    if item.expiration ≤ 0 then ((0, false), { c with lru := lru' })
    else
      let ttl := item.expiration - now
      if ttl < 0 then ((0, false), { c with lru := lru' })
      else ((ttl, true), { c with lru := lru' })

/-- `RistrettoCache.Del`: synchronous delete (fires `onExit`; the callback
carries no state in the model). -/
def rcDel (c : RistrettoCache) (key : String) : RistrettoCache :=
  { c with lru := (lruDelete c.lru key).2 }

/-- `RistrettoCache.cleanupExpired`: snapshot the store and delete every
expired entry, accounting evictions. -/
def cleanupExpired (c : RistrettoCache) (now : Int) : RistrettoCache :=
  c.lru.items.foldl
    (fun (c : RistrettoCache) (it : CacheItem) =>
      if it.expiration > 0 ∧ now > it.expiration then
        match lruDelete c.lru it.key with
        | (some _, lru') =>
          { c with lru := lru', keysEvicted := c.keysEvicted + 1,
                   costEvicted := c.costEvicted + it.cost }
        | (none, _) => c
      else c)
    c

/-- Reachable engine states: a fresh cache followed by any interleaving of
`set`/`setWithTtl` calls, admission-worker steps (one queued item processed
in FIFO order — `wait` is a maximal run of such steps), reads, synchronous
deletes, evictions and TTL sweeps. -/
inductive RCReach : RistrettoCache → Prop where
  | init (numCounters maxCost bufferItems : Int) (onEvict onReject onExit : Bool) :
      RCReach (newRistrettoCache numCounters maxCost bufferItems onEvict onReject onExit)
  | set {c} (key value : String) (cost expiration : Int) :
      RCReach c → RCReach (setWithOptions c key value cost expiration).2.1
  | process {c item rest} :
      RCReach c → c.queue = item :: rest →
      RCReach (processOneSet { c with queue := rest } item)
  | get {c} (key : String) (now : Int) :
      RCReach c → RCReach (rcGet c key now).2
  | del {c} (key : String) :
      RCReach c → RCReach (rcDel c key)
  | evict {c} :
      RCReach c → RCReach (rcEvictOne c)
  | cleanup {c} (now : Int) :
      RCReach c → RCReach (cleanupExpired c now)

/-- Total cost of the entries of a store. -/
def sumCosts (l : List CacheItem) : Int :=
  (l.map (fun it => it.cost)).sum

/-! ## The cost invariant (claim C1) -/

/-- `rcInv` is the quiescent-store invariant maintained by every engine
operation: recorded cost is the sum of entry costs, within budget, all
stored and queued costs are at least 1, and the store inherited the
engine's `maxCost`. -/
def rcInv (c : RistrettoCache) : Prop :=
  c.lru.maxCost = c.maxCost ∧
  1 ≤ c.maxCost ∧
  c.lru.cost = sumCosts c.lru.items ∧
  c.lru.cost ≤ c.maxCost ∧
  (∀ it ∈ c.lru.items, 1 ≤ it.cost) ∧
  (∀ it ∈ c.queue, 1 ≤ it.cost)

lemma sumCosts_nil : sumCosts [] = 0 := rfl

lemma sumCosts_cons (x : CacheItem) (l : List CacheItem) :
    sumCosts (x :: l) = x.cost + sumCosts l := by
  simp [sumCosts]

lemma extractFirst_spec {p : CacheItem → Bool} :
    ∀ {l : List CacheItem} {x : CacheItem} {rest : List CacheItem},
      extractFirst p l = some (x, rest) →
      sumCosts l = x.cost + sumCosts rest ∧ (∀ y ∈ rest, y ∈ l) ∧ x ∈ l
  | [], x, rest => by simp [extractFirst]
  | a :: l, x, rest => by
    intro h
    simp only [extractFirst] at h
    by_cases hp : p a
    · simp [hp] at h
      obtain ⟨hx, hrest⟩ := h
      subst hx hrest
      exact ⟨rfl, fun y hy => List.mem_cons_of_mem _ hy, List.mem_cons_self _ _⟩
    · simp [hp] at h
      cases hrec : extractFirst p l with
      | none => rw [hrec] at h; exact absurd h (by simp)
      | some pair =>
        obtain ⟨y, ys⟩ := pair
        rw [hrec] at h
        simp at h
        obtain ⟨hx, hrest⟩ := h
        subst hx
        obtain ⟨hsum, hsub, hmem⟩ := extractFirst_spec hrec
        subst hrest
        refine ⟨?_, ?_, List.mem_cons_of_mem _ hmem⟩
        · simp [sumCosts_cons, hsum]; ring
        · intro z hz
          rcases List.mem_cons.1 hz with hz | hz
          · exact hz ▸ List.mem_cons_self _ _
          · exact List.mem_cons_of_mem _ (hsub z hz)

lemma sumCosts_getLast {l : List CacheItem} {x : CacheItem}
    (h : l.getLast? = some x) :
    sumCosts l = sumCosts l.dropLast + x.cost ∧ x ∈ l := by
  induction l with
  | nil => simp at h
  | cons a t ih =>
    cases t with
    | nil =>
      simp [List.getLast?] at h
      subst h
      simp [sumCosts_cons, sumCosts_nil]
    | cons b t' =>
      rw [List.getLast?_cons_cons] at h
      obtain ⟨hsum, hmem⟩ := ih h
      refine ⟨?_, List.mem_cons_of_mem _ hmem⟩
      have hd : (a :: b :: t').dropLast = a :: (b :: t').dropLast := rfl
      have h1 : sumCosts (a :: b :: t') = a.cost + sumCosts (b :: t') :=
        sumCosts_cons _ _
      have h2 : sumCosts (a :: (b :: t').dropLast) =
          a.cost + sumCosts ((b :: t').dropLast) := sumCosts_cons _ _
      rw [hd, h1, h2, hsum]
      ring

/-- Cost-accounting wellformedness of a store: the recorded cost is the sum
of the entry costs, and every stored cost is at least 1. -/
def lruWF (c : LRUCache) : Prop :=
  c.cost = sumCosts c.items ∧ ∀ it ∈ c.items, 1 ≤ it.cost

lemma lruRemoveLast_wf {c : LRUCache} (h : lruWF c) :
    lruWF (lruRemoveLast c) ∧ (lruRemoveLast c).maxCost = c.maxCost ∧
    (lruRemoveLast c).cost ≤ c.cost := by
  obtain ⟨hsum, hcosts⟩ := h
  unfold lruRemoveLast
  cases hlast : c.items.getLast? with
  | none => exact ⟨⟨hsum, hcosts⟩, rfl, le_refl _⟩
  | some x =>
    obtain ⟨hx, hxmem⟩ := sumCosts_getLast hlast
    have hx1 : 1 ≤ x.cost := hcosts x hxmem
    refine ⟨⟨?_, ?_⟩, rfl, ?_⟩
    · simp only [hsum, hx]; ring
    · intro it hit
      exact hcosts it (List.dropLast_subset _ hit)
    · simp only
      omega

lemma lruEvictLoop_spec :
    ∀ (fuel : Nat) (c : LRUCache), lruWF c →
      lruWF (lruEvictLoop fuel c) ∧
      (lruEvictLoop fuel c).maxCost = c.maxCost ∧
      (lruEvictLoop fuel c).cost ≤ c.cost ∧
      (c.items.length ≤ fuel → 0 ≤ c.maxCost →
        (lruEvictLoop fuel c).cost ≤ c.maxCost)
  | 0, c => by
    intro h
    refine ⟨h, rfl, le_refl _, ?_⟩
    intro hlen hmax
    have hnil : c.items = [] := List.length_eq_zero.1 (Nat.le_zero.1 hlen)
    show c.cost ≤ c.maxCost
    rw [h.1, hnil, sumCosts_nil]
    exact hmax
  | fuel + 1, c => by
    intro h
    unfold lruEvictLoop
    by_cases hcond : c.cost > c.maxCost ∧ c.items ≠ []
    · rw [if_pos hcond]
      obtain ⟨hwf', hmax', hle'⟩ := lruRemoveLast_wf h
      obtain ⟨hwf, hmax, hle, hbound⟩ := lruEvictLoop_spec fuel (lruRemoveLast c) hwf'
      refine ⟨hwf, hmax.trans hmax', hle.trans hle', ?_⟩
      intro hlen hmaxpos
      have hne : c.items ≠ [] := hcond.2
      have hlen' : (lruRemoveLast c).items.length ≤ fuel := by
        unfold lruRemoveLast
        cases hlast : c.items.getLast? with
        | none =>
          exfalso
          exact hne (List.getLast?_eq_none_iff.1 hlast)
        | some x =>
          simp only
          have := List.length_dropLast c.items
          omega
      have := hbound hlen' (by rw [hmax']; exact hmaxpos)
      rw [hmax'] at this
      exact this
    · rw [if_neg hcond]
      refine ⟨h, rfl, le_refl _, ?_⟩
      intro _ hmax
      by_cases hc : c.cost > c.maxCost
      · have hi : c.items = [] := by
          by_contra hne
          exact hcond ⟨hc, hne⟩
        rw [h.1, hi, sumCosts_nil]
        exact hmax
      · omega

lemma lruAdd_notfound_wf {c : LRUCache} {key value : String} {cost expiration : Int}
    (h : lruWF c) (habs : extractFirst (fun it => it.key == key) c.items = none)
    (hcost : 1 ≤ cost) (hmax : 0 ≤ c.maxCost) :
    lruWF (lruAdd c key value cost expiration) ∧
    (lruAdd c key value cost expiration).maxCost = c.maxCost ∧
    (lruAdd c key value cost expiration).cost ≤ c.maxCost := by
  unfold lruAdd
  rw [habs]
  set c' : LRUCache :=
    { c with
      items := { key := key, value := value, cost := cost, expiration := expiration } :: c.items,
      cost := c.cost + cost } with hc'
  have hwf' : lruWF c' := by
    constructor
    · show c.cost + cost = sumCosts (_ :: c.items)
      rw [sumCosts_cons, h.1]
      ring
    · intro it hit
      rcases List.mem_cons.1 hit with hit | hit
      · rw [hit]; exact hcost
      · exact h.2 it hit
  obtain ⟨hwf, hmaxeq, _, hbound⟩ := lruEvictLoop_spec c'.items.length c' hwf'
  exact ⟨hwf, hmaxeq, hbound (le_refl _) hmax⟩

lemma lruGetAndUpdate_wf {c : LRUCache} {key : String} {now : Int} (h : lruWF c) :
    lruWF (lruGetAndUpdate c key now).2 ∧
    (lruGetAndUpdate c key now).2.maxCost = c.maxCost ∧
    (lruGetAndUpdate c key now).2.cost ≤ c.cost := by
  unfold lruGetAndUpdate
  cases hx : extractFirst (fun it => it.key == key) c.items with
  | none => exact ⟨h, rfl, le_refl _⟩
  | some pair =>
    obtain ⟨item, rest⟩ := pair
    dsimp only
    obtain ⟨hsum, hsub, hmem⟩ := extractFirst_spec hx
    have hi1 : 1 ≤ item.cost := h.2 item hmem
    by_cases hexp : item.expiration > 0 ∧ now > item.expiration
    · rw [if_pos hexp]
      refine ⟨⟨?_, ?_⟩, rfl, ?_⟩
      · show c.cost - item.cost = sumCosts rest
        rw [h.1, hsum]; ring
      · intro it hit; exact h.2 it (hsub it hit)
      · show c.cost - item.cost ≤ c.cost
        omega
    · rw [if_neg hexp]
      refine ⟨⟨?_, ?_⟩, rfl, le_refl _⟩
      · show c.cost = sumCosts (item :: rest)
        rw [sumCosts_cons, h.1, hsum]
      · intro it hit
        rcases List.mem_cons.1 hit with hit | hit
        · rw [hit]; exact hi1
        · exact h.2 it (hsub it hit)

lemma lruDelete_wf {c : LRUCache} {key : String} (h : lruWF c) :
    lruWF (lruDelete c key).2 ∧
    (lruDelete c key).2.maxCost = c.maxCost ∧
    (lruDelete c key).2.cost ≤ c.cost := by
  unfold lruDelete
  cases hx : extractFirst (fun it => it.key == key) c.items with
  | none => exact ⟨h, rfl, le_refl _⟩
  | some pair =>
    obtain ⟨item, rest⟩ := pair
    dsimp only
    obtain ⟨hsum, hsub, hmem⟩ := extractFirst_spec hx
    have hi1 : 1 ≤ item.cost := h.2 item hmem
    refine ⟨⟨?_, ?_⟩, rfl, ?_⟩
    · show c.cost - item.cost = sumCosts rest
      rw [h.1, hsum]; ring
    · intro it hit; exact h.2 it (hsub it hit)
    · show c.cost - item.cost ≤ c.cost
      omega

lemma rcEvictOne_spec {c : RistrettoCache} (h : rcInv c) :
    rcInv (rcEvictOne c) ∧ (rcEvictOne c).queue = c.queue ∧
    (rcEvictOne c).maxCost = c.maxCost ∧
    (rcEvictOne c).lru.cost ≤ c.lru.cost := by
  obtain ⟨hmx, hmx1, hsum, hle, hcosts, hq⟩ := h
  unfold rcEvictOne
  cases hlast : c.lru.items.getLast? with
  | none => exact ⟨⟨hmx, hmx1, hsum, hle, hcosts, hq⟩, rfl, rfl, le_refl _⟩
  | some ev =>
    obtain ⟨hx, hxmem⟩ := sumCosts_getLast hlast
    have hev1 : 1 ≤ ev.cost := hcosts ev hxmem
    refine ⟨⟨hmx, hmx1, ?_, ?_, ?_, hq⟩, rfl, rfl, ?_⟩
    · show c.lru.cost - ev.cost = sumCosts c.lru.items.dropLast
      rw [hsum, hx]; ring
    · show c.lru.cost - ev.cost ≤ c.maxCost
      omega
    · intro it hit
      exact hcosts it (List.dropLast_subset _ hit)
    · show c.lru.cost - ev.cost ≤ c.lru.cost
      omega

lemma rcEvictOne_items {c : RistrettoCache} (hne : c.lru.items ≠ []) :
    (rcEvictOne c).lru.items = c.lru.items.dropLast := by
  unfold rcEvictOne
  cases hlast : c.lru.items.getLast? with
  | none => exact absurd (List.getLast?_eq_none_iff.1 hlast) hne
  | some ev => rfl

lemma rcEvictToFit_spec :
    ∀ (fuel : Nat) (c : RistrettoCache) (need : Int), rcInv c →
      rcInv (rcEvictToFit fuel c need) ∧
      (rcEvictToFit fuel c need).queue = c.queue ∧
      (rcEvictToFit fuel c need).maxCost = c.maxCost ∧
      (c.lru.items.length ≤ fuel →
        (rcEvictToFit fuel c need).lru.cost + need ≤ c.maxCost ∨
        (rcEvictToFit fuel c need).lru.items = [])
  | 0, c, need => by
    intro h
    refine ⟨h, rfl, rfl, ?_⟩
    intro hlen
    exact Or.inr (List.length_eq_zero.1 (Nat.le_zero.1 hlen))
  | fuel + 1, c, need => by
    intro h
    unfold rcEvictToFit
    by_cases hcond : c.lru.cost + need > c.maxCost ∧ c.lru.items ≠ []
    · rw [if_pos hcond]
      obtain ⟨h', hq', hm', _⟩ := rcEvictOne_spec h
      obtain ⟨hwf, hq, hm, hbound⟩ := rcEvictToFit_spec fuel (rcEvictOne c) need h'
      refine ⟨hwf, hq.trans hq', hm.trans hm', ?_⟩
      intro hlen
      have hlen' : (rcEvictOne c).lru.items.length ≤ fuel := by
        rw [rcEvictOne_items hcond.2]
        have := List.length_dropLast c.lru.items
        have : c.lru.items.length ≠ 0 := by
          intro h0
          exact hcond.2 (List.length_eq_zero.1 h0)
        omega
      rcases hbound hlen' with hb | hb
      · exact Or.inl (by rw [← hm']; exact hb)
      · exact Or.inr hb
    · rw [if_neg hcond]
      refine ⟨h, rfl, rfl, ?_⟩
      intro _
      by_cases hc : c.lru.cost + need > c.maxCost
      · exact Or.inr (by
          by_contra hne
          exact hcond ⟨hc, hne⟩)
      · omega

lemma processAdmission_spec {c : RistrettoCache} {item : SetItem} (h : rcInv c) :
    rcInv (processAdmission c item) ∧
    (processAdmission c item).queue = c.queue ∧
    (processAdmission c item).maxCost = c.maxCost := by
  unfold processAdmission
  dsimp only
  set c1 : RistrettoCache := { c with freq := freqIncrement c.freq item.key } with hc1
  have h1 : rcInv c1 := h
  split
  · split
    · obtain ⟨hwf, hmaxeq, hle⟩ :=
        @lruDelete_wf c1.lru ((sampleMinFrequency c1 5).2) ⟨h1.2.2.1, h1.2.2.2.2.1⟩
      obtain ⟨hmx, hmx1, _, hcle, _, hq⟩ := h1
      exact ⟨⟨hmaxeq.trans hmx, hmx1, hwf.1, le_trans hle hcle, hwf.2, hq⟩, rfl, rfl⟩
    · exact ⟨h1, rfl, rfl⟩
  · exact ⟨h1, rfl, rfl⟩

lemma processEvict_spec {c : RistrettoCache} {item : SetItem} (h : rcInv c) :
    rcInv (processEvict c item) ∧
    (processEvict c item).queue = c.queue ∧
    (processEvict c item).maxCost = c.maxCost ∧
    ((processEvict c item).lru.cost + item.cost ≤ c.maxCost ∨
      (processEvict c item).lru.items = []) := by
  unfold processEvict
  dsimp only
  split
  · next hgt =>
    obtain ⟨hwf, hq, hm, hbound⟩ := rcEvictToFit_spec c.lru.items.length c item.cost h
    exact ⟨hwf, hq, hm, hbound (le_refl _)⟩
  · next hle =>
    refine ⟨h, rfl, rfl, Or.inl ?_⟩
    omega

lemma processStore_spec {c : RistrettoCache} {item : SetItem} (h : rcInv c)
    (hc1 : 1 ≤ item.cost)
    (hfits : c.lru.cost + item.cost ≤ c.maxCost ∨ c.lru.items = []) :
    rcInv (processStore c item) ∧ (processStore c item).queue = c.queue := by
  obtain ⟨hmx, hmx1, hsum, hle, hcosts, hq⟩ := h
  unfold processStore
  cases hx : extractFirst (fun it => it.key == item.key) c.lru.items with
  | some pair =>
    obtain ⟨oldItem, rest⟩ := pair
    dsimp only
    obtain ⟨hxsum, hsub, hmem⟩ := extractFirst_spec hx
    have hold1 : 1 ≤ oldItem.cost := hcosts oldItem hmem
    have hne : c.lru.items ≠ [] := by
      intro h0
      rw [h0] at hx
      simp [extractFirst] at hx
    have hfits' : c.lru.cost + item.cost ≤ c.maxCost := by
      rcases hfits with hf | hf
      · exact hf
      · exact absurd hf hne
    refine ⟨⟨hmx, hmx1, ?_, ?_, ?_, hq⟩, rfl⟩
    · show c.lru.cost - oldItem.cost + item.cost = sumCosts (_ :: rest)
      rw [sumCosts_cons, hsum, hxsum]
      ring
    · show c.lru.cost - oldItem.cost + item.cost ≤ c.maxCost
      omega
    · intro it hit
      rcases List.mem_cons.1 hit with hit | hit
      · rw [hit]; exact hc1
      · exact hcosts it (hsub it hit)
  | none =>
    dsimp only
    obtain ⟨hwf, hmaxeq, hbound⟩ :=
      @lruAdd_notfound_wf c.lru item.key item.value item.cost item.expiration
        ⟨hsum, hcosts⟩ hx hc1 (by omega)
    refine ⟨⟨hmaxeq.trans hmx, hmx1, hwf.1, ?_, hwf.2, hq⟩, rfl⟩
    rw [hmx] at hbound
    exact hbound

lemma processOneSet_inv {c : RistrettoCache} {item : SetItem} (h : rcInv c)
    (hc1 : 1 ≤ item.cost) :
    rcInv (processOneSet c item) ∧ (processOneSet c item).queue = c.queue := by
  obtain ⟨h1, hq1, hm1⟩ := @processAdmission_spec c item h
  obtain ⟨h2, hq2, hm2, hfits⟩ := @processEvict_spec (processAdmission c item) item h1
  rw [← hm2] at hfits
  obtain ⟨h3, hq3⟩ := processStore_spec h2 hc1 hfits
  exact ⟨h3, hq3.trans (hq2.trans hq1)⟩

lemma setWithOptions_inv {c : RistrettoCache} {key value : String}
    {cost expiration : Int} (h : rcInv c) :
    rcInv (setWithOptions c key value cost expiration).2.1 := by
  obtain ⟨hmx, hmx1, hsum, hle, hcosts, hq⟩ := h
  unfold setWithOptions
  by_cases hclosed : c.closed
  · rw [if_pos hclosed]
    exact ⟨hmx, hmx1, hsum, hle, hcosts, hq⟩
  · rw [if_neg hclosed]
    dsimp only
    by_cases hrej :
        (if (if cost < 0 then 1 else cost) = 0 then 1 else if cost < 0 then 1 else cost) >
          c.maxCost
    · rw [if_pos hrej]
      exact ⟨hmx, hmx1, hsum, hle, hcosts, hq⟩
    · rw [if_neg hrej]
      by_cases hroom : c.queue.length < c.queueCap
      · rw [if_pos hroom]
        refine ⟨hmx, hmx1, hsum, hle, hcosts, ?_⟩
        intro it hit
        rcases List.mem_append.1 hit with hit | hit
        · exact hq it hit
        · rw [List.mem_singleton.1 hit]
          dsimp only
          by_cases h0 : cost < 0
          · simp [h0]
          · simp only [h0, if_false]
            by_cases h00 : cost = 0
            · simp [h00]
            · simp only [h00, if_false]
              omega
      · rw [if_neg hroom]
        exact ⟨hmx, hmx1, hsum, hle, hcosts, hq⟩

lemma rcGet_inv {c : RistrettoCache} {key : String} {now : Int} (h : rcInv c) :
    rcInv (rcGet c key now).2 := by
  obtain ⟨hmx, hmx1, hsum, hle, hcosts, hq⟩ := h
  unfold rcGet
  split
  · exact ⟨hmx, hmx1, hsum, hle, hcosts, hq⟩
  · obtain ⟨hwf, hmaxeq, hcle⟩ :=
      @lruGetAndUpdate_wf c.lru key now ⟨hsum, hcosts⟩
    cases hg : lruGetAndUpdate c.lru key now with
    | mk fst lru' =>
      rw [hg] at hwf hmaxeq hcle
      cases fst with
      | none => exact ⟨hmaxeq.trans hmx, hmx1, hwf.1, le_trans hcle hle, hwf.2, hq⟩
      | some item => exact ⟨hmaxeq.trans hmx, hmx1, hwf.1, le_trans hcle hle, hwf.2, hq⟩

lemma rcDel_inv {c : RistrettoCache} {key : String} (h : rcInv c) :
    rcInv (rcDel c key) := by
  obtain ⟨hmx, hmx1, hsum, hle, hcosts, hq⟩ := h
  unfold rcDel
  obtain ⟨hwf, hmaxeq, hcle⟩ :=
    @lruDelete_wf c.lru key ⟨hsum, hcosts⟩
  exact ⟨hmaxeq.trans hmx, hmx1, hwf.1, le_trans hcle hle, hwf.2, hq⟩

lemma cleanupExpired_inv {c : RistrettoCache} {now : Int} (h : rcInv c) :
    rcInv (cleanupExpired c now) := by
  unfold cleanupExpired
  generalize c.lru.items = snapshot
  induction snapshot generalizing c with
  | nil => exact h
  | cons it rest ih =>
    rw [List.foldl_cons]
    apply ih
    split
    · obtain ⟨hmx, hmx1, hsum, hle, hcosts, hq⟩ := h
      obtain ⟨hwf, hmaxeq, hcle⟩ :=
        @lruDelete_wf c.lru it.key ⟨hsum, hcosts⟩
      cases hd : lruDelete c.lru it.key with
      | mk fst lru' =>
        rw [hd] at hwf hmaxeq hcle
        cases fst with
        | none => exact ⟨hmx, hmx1, hsum, hle, hcosts, hq⟩
        | some v => exact ⟨hmaxeq.trans hmx, hmx1, hwf.1, le_trans hcle hle, hwf.2, hq⟩
    · exact h

lemma newRistrettoCache_inv (numCounters maxCost bufferItems : Int)
    (onEvict onReject onExit : Bool) :
    rcInv (newRistrettoCache numCounters maxCost bufferItems onEvict onReject onExit) := by
  unfold newRistrettoCache rcInv
  dsimp only
  refine ⟨rfl, ?_, rfl, ?_, ?_, ?_⟩
  · split <;> omega
  · show (0 : Int) ≤ _
    split <;> omega
  · intro it hit
    simp at hit
  · intro it hit
    simp at hit

/-- Every reachable engine state satisfies the cost invariant. -/
lemma rcReach_inv {c : RistrettoCache} (h : RCReach c) : rcInv c := by
  induction h with
  | init numCounters maxCost bufferItems onEvict onReject onExit =>
    exact newRistrettoCache_inv numCounters maxCost bufferItems onEvict onReject onExit
  | set key value cost expiration _ ih => exact setWithOptions_inv ih
  | process hr hqeq ih =>
    next c item rest =>
    have hinv' : rcInv { c with queue := rest } := by
      obtain ⟨hmx, hmx1, hsum, hle, hcosts, hq⟩ := ih
      refine ⟨hmx, hmx1, hsum, hle, hcosts, ?_⟩
      intro it hit
      exact hq it (by rw [hqeq]; exact List.mem_cons_of_mem _ hit)
    have hc1 : 1 ≤ item.cost := by
      obtain ⟨_, _, _, _, _, hq⟩ := ih
      exact hq item (by rw [hqeq]; exact List.mem_cons_self _ _)
    exact (processOneSet_inv hinv' hc1).1
  | get key now _ ih => exact rcGet_inv ih
  | del key _ ih => exact rcDel_inv ih
  | evict _ ih => exact (rcEvictOne_spec ih).1
  | cleanup now _ ih => exact cleanupExpired_inv ih

/-- **C1.**  For every reachable engine state whose admission queue has been
drained (the post-`wait` states), the store's recorded total cost equals
the sum of the costs of the entries it holds, and that total is at most
`maxCost`.  Reachability covers any sequence of `set`/`setWithTtl` calls,
admission-worker steps, `get`s, `del`s, evictions and TTL sweeps. -/
theorem c1_cost_invariant {c : RistrettoCache} (h : RCReach c)
    (hdrained : c.queue = []) :
    c.lru.cost = sumCosts c.lru.items ∧ c.lru.cost ≤ c.maxCost := by
  obtain ⟨_, _, hsum, hle, _, _⟩ := rcReach_inv h
  exact ⟨hsum, hle⟩

/-- A concrete drained state for the C1 witness: a fresh cache with
`maxCost = 10`, one `set("k","v",3)` accepted onto the queue, then one
admission-worker step. -/
def c1State : RistrettoCache :=
  processOneSet
    { (rcSet (newRistrettoCache 10 10 1 false false false) "k" "v" 3).2.1 with queue := [] }
    ⟨"k", "v", 3, 0⟩

/-- Witness for C1: the theorem applied to the concrete reachable drained
state `c1State`. -/
theorem c1_cost_invariant_witness :
    c1State.lru.cost = sumCosts c1State.lru.items ∧ c1State.lru.cost ≤ c1State.maxCost := by
  have hreach : RCReach c1State := by
    have h0 := RCReach.init 10 10 1 false false false
    have h1 := RCReach.set (c := newRistrettoCache 10 10 1 false false false)
      "k" "v" 3 0 h0
    exact @RCReach.process
      ((rcSet (newRistrettoCache 10 10 1 false false false) "k" "v" 3).2.1)
      ⟨"k", "v", 3, 0⟩ [] h1 (by decide)
  exact c1_cost_invariant hreach (by decide)

/-! ## Set validation, rejection and dropping (claims C4, C9) -/

/-- The cost-validation of `setWithOptions` as a standalone function, for
stating its contract: `cost < 0 → 1`, then `cost == 0 → 1`. -/
def coerceCost (cost : Int) : Int :=
  let cost := if cost < 0 then 1 else cost
  if cost = 0 then 1 else cost

lemma coerceCost_eq (cost : Int) :
    coerceCost cost =
      if (if cost < 0 then 1 else cost) = 0 then 1 else if cost < 0 then 1 else cost := rfl

lemma coerceCost_ge_one (cost : Int) : 1 ≤ coerceCost cost := by
  rw [coerceCost_eq]
  by_cases h0 : cost < 0
  · simp [h0]
  · simp only [h0, if_false]
    by_cases h00 : cost = 0
    · simp [h00]
    · simp only [h00, if_false]
      omega

/-- **C4.**  On an open engine, `set`/`setWithTtl` validates the cost into
`[1, maxCost]`: a cost exceeding `maxCost` is rejected — counted in
`setsRejected`, firing `onReject` and `onExit` exactly when configured —
and the whole engine state other than that counter (in particular the
store and the queue) is unchanged, so the rejected item never appears in
the store; otherwise the item is enqueued without blocking when the queue
has room, and dropped — counted in `setsDropped`, firing no callback —
when the queue is full. -/
theorem c4_set_validation (c : RistrettoCache) (key value : String)
    (cost expiration : Int) (hopen : c.closed = false) :
    1 ≤ coerceCost cost ∧
    (coerceCost cost > c.maxCost →
      setWithOptions c key value cost expiration =
        (false, { c with setsRejected := c.setsRejected + 1 },
         ⟨c.onRejectConfigured, c.onExitConfigured⟩)) ∧
    (¬ coerceCost cost > c.maxCost → c.queue.length < c.queueCap →
      setWithOptions c key value cost expiration =
        (true, { c with queue := c.queue ++ [⟨key, value, coerceCost cost, expiration⟩] },
         ⟨false, false⟩)) ∧
    (¬ coerceCost cost > c.maxCost → ¬ c.queue.length < c.queueCap →
      setWithOptions c key value cost expiration =
        (false, { c with setsDropped := c.setsDropped + 1 }, ⟨false, false⟩)) := by
  have hnc : ¬ (c.closed = true) := by rw [hopen]; simp
  refine ⟨coerceCost_ge_one cost, ?_, ?_, ?_⟩
  · intro hrej
    rw [coerceCost_eq] at hrej
    unfold setWithOptions
    rw [if_neg hnc]
    dsimp only
    rw [if_pos hrej]
  · intro hrej hroom
    rw [coerceCost_eq] at hrej
    unfold setWithOptions
    rw [if_neg hnc]
    dsimp only
    rw [if_neg hrej, if_pos hroom, coerceCost_eq]
  · intro hrej hroom
    rw [coerceCost_eq] at hrej
    unfold setWithOptions
    rw [if_neg hnc]
    dsimp only
    rw [if_neg hrej, if_neg hroom]

/-- Witness for C4: the theorem applied at a fresh open engine
(`maxCost = 10`) with a rejected cost of 11. -/
theorem c4_set_validation_witness :
    (newRistrettoCache 10 10 1 false true true).closed = false ∧
    coerceCost 11 > (newRistrettoCache 10 10 1 false true true).maxCost ∧
    setWithOptions (newRistrettoCache 10 10 1 false true true) "k" "v" 11 0 =
      (false,
       { newRistrettoCache 10 10 1 false true true with setsRejected := 1 },
       ⟨true, true⟩) := by
  refine ⟨rfl, by decide, ?_⟩
  have h := (c4_set_validation (newRistrettoCache 10 10 1 false true true)
    "k" "v" 11 0 rfl).2.1 (by decide)
  exact h.trans (by decide)

/-- **C9.**  On an open engine with `maxCost ≥ 1`, a `set` with
non-positive cost is never rejected: the cost is coerced to 1 before the
`maxCost` comparison, and the item is enqueued with cost 1 — the call
returns `true` — unless the queue is full, in which case it is dropped. -/
theorem c9_nonpositive_cost (c : RistrettoCache) (key value : String)
    (cost expiration : Int) (hopen : c.closed = false) (hcost : cost ≤ 0)
    (hmax : 1 ≤ c.maxCost) :
    coerceCost cost = 1 ∧
    (c.queue.length < c.queueCap →
      setWithOptions c key value cost expiration =
        (true, { c with queue := c.queue ++ [⟨key, value, 1, expiration⟩] },
         ⟨false, false⟩)) ∧
    (¬ c.queue.length < c.queueCap →
      setWithOptions c key value cost expiration =
        (false, { c with setsDropped := c.setsDropped + 1 }, ⟨false, false⟩)) ∧
    (setWithOptions c key value cost expiration).2.1.setsRejected = c.setsRejected := by
  have hone : coerceCost cost = 1 := by
    rw [coerceCost_eq]
    by_cases h0 : cost < 0
    · simp [h0]
    · have h00 : cost = 0 := by omega
      simp [h00]
  have hnrej : ¬ coerceCost cost > c.maxCost := by
    rw [hone]; omega
  obtain ⟨_, _, henq, hdrop⟩ := c4_set_validation c key value cost expiration hopen
  refine ⟨hone, ?_, ?_, ?_⟩
  · intro hroom
    rw [henq hnrej hroom, hone]
  · intro hroom
    exact hdrop hnrej hroom
  · by_cases hroom : c.queue.length < c.queueCap
    · rw [henq hnrej hroom]
    · rw [hdrop hnrej hroom]

/-- Witness for C9: coerced admission of a cost-0 set on a fresh engine. -/
theorem c9_nonpositive_cost_witness :
    setWithOptions (newRistrettoCache 10 10 1 false false false) "k" "v" 0 0 =
      (true,
       { newRistrettoCache 10 10 1 false false false with queue := [⟨"k", "v", 1, 0⟩] },
       ⟨false, false⟩) := by
  have h := (c9_nonpositive_cost (newRistrettoCache 10 10 1 false false false)
    "k" "v" 0 0 rfl (by decide) (by decide)).2.1 (by decide)
  exact h.trans (by decide)

/-! ## `getTtl` versus `getWithTtl` (claim C8) -/

/-- A store holding the unexpired entry `("k","v")` with cost 1 and no
expiration, inside an otherwise fresh engine. -/
def c8State : RistrettoCache :=
  { newRistrettoCache 10 10 1 false false false with
    lru := { items := [⟨"k", "v", 1, 0⟩], cost := 1, maxCost := 10 } }

/-- **C8, counterexample.**  The key `"k"` is present with no expiration
(hence not expired), `GetWithTTL` reports a hit with remaining TTL 0 — but
`GetTTL` returns `(0, false)`: it does not behave as a hit on entries
without an expiration, contrary to the claim. -/
theorem c8_counterexample :
    c8State.lru.items.find? (fun it => it.key == "k") = some ⟨"k", "v", 1, 0⟩ ∧
    (rcGetWithTTL c8State "k" 5).1 = some ("v", 0) ∧
    (rcGetTTL c8State "k" 5).1 = (0, false) := by
  decide

/-- **C8, amended.**  For a present, unexpired entry: `getWithTtl` behaves
as a hit, returning the remaining TTL (0 when the entry has no
expiration); `getTtl` returns `(remaining, true)` only when the entry has
an expiration set, and returns `(0, false)` — a miss-shaped answer — for a
present entry with no expiration. -/
theorem c8_getTTL_amended (c : RistrettoCache) (key : String) (now : Int)
    (item : CacheItem) (rest : List CacheItem)
    (hfound : extractFirst (fun it => it.key == key) c.lru.items = some (item, rest))
    (hlive : ¬(item.expiration > 0 ∧ now > item.expiration)) :
    (item.expiration > 0 → (rcGetTTL c key now).1 = (item.expiration - now, true)) ∧
    (item.expiration ≤ 0 → (rcGetTTL c key now).1 = (0, false)) ∧
    (c.closed = false →
      (rcGetWithTTL c key now).1 =
        some (item.value, if item.expiration > 0 then item.expiration - now else 0)) := by
  have hupd : lruGetAndUpdate c.lru key now =
      (some item, ⟨item :: rest, c.lru.cost, c.lru.maxCost⟩) := by
    unfold lruGetAndUpdate
    rw [hfound]
    dsimp only
    rw [if_neg hlive]
  refine ⟨?_, ?_, ?_⟩
  · intro hexp
    unfold rcGetTTL
    rw [hupd]
    try dsimp only
    rw [if_neg (by omega : ¬ item.expiration ≤ 0)]
    try dsimp only
    rw [if_neg (by omega : ¬ item.expiration - now < 0)]
  · intro hexp
    unfold rcGetTTL
    rw [hupd]
    try dsimp only
    rw [if_pos hexp]
  · intro hopen
    unfold rcGetWithTTL
    rw [if_neg (by rw [hopen]; simp : ¬ (c.closed = true))]
    rw [hupd]
    try dsimp only
    by_cases hexp : item.expiration > 0
    · rw [if_pos hexp, if_pos hexp, if_neg (by omega : ¬ item.expiration - now < 0)]
    · rw [if_neg hexp, if_neg hexp]

/-- Witness for the amended C8: applied to `c8State` (entry without
expiration) at `now = 5`. -/
theorem c8_getTTL_amended_witness :
    ((0 : Int) ≤ 0 → (rcGetTTL c8State "k" 5).1 = (0, false)) ∧
    (rcGetWithTTL c8State "k" 5).1 = some ("v", 0) := by
  have h := c8_getTTL_amended c8State "k" 5 ⟨"k", "v", 1, 0⟩ []
    (by decide) (by decide)
  refine ⟨h.2.1, ?_⟩
  have h3 := h.2.2 rfl
  rw [h3]
  decide

/-! ## Flat IP search ordering (claim C2) -/

/-- **C2.**  `FlatSearch.Search` under the IP metric does *not* return its
results sorted descending by inner product: on the store `{a=[1], b=[2]}`
with query `[1]`, it returns `a` (inner product 1) before `b` (inner
product 2) — ascending inner product, best match last — because the scores
are the negated products (`IPDistance`) and `quickSortDesc` sorts those
descending; the surfaced scores are the raw negated values `[-1, -2]`.
`IPDistance`'s own documentation ("so that larger inner products appear
first when sorting") is contradicted. -/
theorem c2_ip_order_bug :
    flatSearchFn c2Store [1] 2 = [⟨"a", -1⟩, ⟨"b", -2⟩] ∧
    (flatSearchFn c2Store [1] 2).map (fun r => r.id) = ["a", "b"] ∧
    innerProd [1] [1] < innerProd [1] [2] := by
  decide

/-! ## HNSW index (`HNSW`, `HNSWNode`, `searchLayer`, …)

The Go file defines `nodeHeap`/`nodeHeapDesc` with `container/heap`-style
methods but never imports `container/heap`: `Push` appends to the backing
slice, `Pop` removes its **last** element and `Top` reads its **first**.
The embedding reproduces exactly this slice behaviour.  The random level of
`getLevel` is an explicit oracle parameter of `hnswAdd`; the `distance
DistanceFunc` struct field is an explicit function field, so theorems are
parametric in the metric. -/

/-- `HNSWNode`.  The per-level neighbor maps are id lists (one fixed
iteration order); the node's level is `neighbors.length - 1`, exactly as in
Go where `NewHNSWNode(level)` allocates `level+1` sets. -/
structure HNSWNode where
  id : String
  vector : List F32
  metadata : List (String × String)
  neighbors : List (List String)
  deleted : Bool
deriving DecidableEq, Repr

/-- `NewHNSWNode`. -/
def newHNSWNode (id : String) (vector : List F32) (metadata : List (String × String))
    (level : Nat) : HNSWNode :=
  { id := id, vector := vector, metadata := metadata,
    neighbors := List.replicate (level + 1) [], deleted := false }

/-- `HNSW`: the graph index state. -/
structure HNSW where
  m : Int
  efConstruction : Int
  efSearch : Int
  metric : MetricType
  dist : List F32 → List F32 → F32
  nodes : List (String × HNSWNode)
  entryPoint : Option String
  maxLevel : Int
  count : Int

/-- `NewHNSW` (configuration defaulting; `levelMult` only feeds the level
oracle and has no other observable effect). -/
def newHNSW (m efConstruction efSearch : Int) (metric : MetricType)
    (dist : List F32 → List F32 → F32) : HNSW :=
  { m := if m ≤ 0 then 16 else m,
    efConstruction := if efConstruction ≤ 0 then 200 else efConstruction,
    efSearch := if efSearch ≤ 0 then 50 else efSearch,
    metric := metric, dist := dist,
    nodes := [], entryPoint := none, maxLevel := -1, count := 0 }

/-- Dereference a node id (`h.nodes[id]` / following a Go pointer). -/
def lookupN (nodes : List (String × HNSWNode)) (id : String) : Option HNSWNode :=
  (nodes.find? (fun p => p.1 == id)).map (fun p => p.2)

/-- In-place mutation of one node of the arena (a write through a Go
pointer): apply `f` to the node stored under `id`. -/
def modNode (nodes : List (String × HNSWNode)) (id : String)
    (f : HNSWNode → HNSWNode) : List (String × HNSWNode) :=
  nodes.map (fun p => if p.1 == id then (p.1, f p.2) else p)

/-- Swap two positions of a list (`a[i], a[j] = a[j], a[i]`). -/
def swapAt {α : Type} (dflt : α) (l : List α) (i j : Nat) : List α :=
  let a := l.getD i dflt
  let b := l.getD j dflt
  (l.set i b).set j a

/-- The double-loop exchange sort used by `pruneNeighbors`,
`HNSW.SearchWithFilter` and `shardedSearch`:
`for i { for j > i { if p a[i] a[j] { swap } } }`; `p` is the
"out of order" test (`>` on the key for an ascending sort). -/
def goSwapSort {α : Type} (dflt : α) (p : α → α → Bool) (l : List α) : List α :=
  (List.range l.length).foldl
    (fun acc i =>
      (List.range l.length).foldl
        (fun acc2 j =>
          if i < j ∧ p (acc2.getD i dflt) (acc2.getD j dflt) then swapAt dflt acc2 i j
          else acc2)
        acc)
    l

/-- Add `toId` into the neighbor map of `fromId` at `level`
(`from.neighbors[level][to.ID] = to`; no-op when the node has no such
level). -/
def addEdge (nodes : List (String × HNSWNode)) (fromId toId : String)
    (level : Nat) : List (String × HNSWNode) :=
  modNode nodes fromId (fun n =>
    if n.neighbors.length ≤ level then n
    else
      let nb := n.neighbors.getD level []
      let nb' := if nb.contains toId then nb else nb ++ [toId]
      { n with neighbors := n.neighbors.set level nb' })

/-- `HNSW.pruneNeighbors`: when a node has more than `M` neighbors at a
level, keep only the `M` closest by raw distance (one-directional; reverse
edges are untouched). -/
def pruneNeighbors (nodes : List (String × HNSWNode)) (nid : String)
    (level : Nat) (m : Int) (dist : List F32 → List F32 → F32) :
    List (String × HNSWNode) :=
  match lookupN nodes nid with
  | none => nodes
  | some node =>
    if node.neighbors.length ≤ level then nodes
    else
      let nbs := node.neighbors.getD level []
      if (nbs.length : Int) ≤ m then nodes
      else
        let distList := nbs.filterMap (fun nbId =>
          (lookupN nodes nbId).map (fun nb => (nbId, dist node.vector nb.vector)))
        let sorted := goSwapSort ("", 0) (fun a b => a.2 > b.2) distList
        let keep := (sorted.take m.toNat).map (fun p => p.1)
        modNode nodes nid (fun n =>
          let pruned := nbs.filter (fun x => keep.contains x)
          { n with neighbors := n.neighbors.set level pruned })

/-- `nodeDist`. -/
structure NodeDist where
  id : String
  d : F32
deriving DecidableEq, Repr

/-- The loop of `HNSW.searchLayer` with the two slice-backed "heaps":
`cand.Pop()` removes the **last** element, `res.Top()` reads the **first**,
and a full `res` replaces its **last** element when a closer neighbor is
found (`res.Pop(); res.Push(n)`).  `r` — the peeked "farthest" result — is
read once per outer iteration, before the neighbor loop, as in the source.
`fuel` dominates the iteration count (each round pops one candidate, and
each node is pushed at most once thanks to the visited set). -/
def slLoop (nodes : List (String × HNSWNode)) (dist : List F32 → List F32 → F32)
    (query : List F32) (ef : Int) (level : Nat) :
    Nat → List String → List NodeDist → List NodeDist → List NodeDist
  | 0, _, _, res => res
  | fuel + 1, visited, cand, res =>
    match cand.getLast? with
    | none => res
    | some c =>
      let cand := cand.dropLast
      match res.head? with
      | none => res
      | some r =>
        if c.d > r.d ∧ (res.length : Int) ≥ ef then res
        else
          let nbrIds :=
            match lookupN nodes c.id with
            | none => []
            | some cn => cn.neighbors.getD level []
          let st := nbrIds.foldl
            (fun (st : List String × List NodeDist × List NodeDist) nbId =>
              match lookupN nodes nbId with
              | none => st
              | some nb =>
                if nb.deleted then st
                else if st.1.contains nbId then st
                else
                  let d := dist nb.vector query
                  let cand' := st.2.1 ++ [⟨nbId, d⟩]
                  if (st.2.2.length : Int) < ef then
                    (nbId :: st.1, cand', st.2.2 ++ [⟨nbId, d⟩])
                  else if d < r.d then
                    (nbId :: st.1, cand', st.2.2.dropLast ++ [⟨nbId, d⟩])
                  else (nbId :: st.1, cand', st.2.2))
            (visited, cand, res)
          slLoop nodes dist query ef level fuel st.1 st.2.1 st.2.2

/-- `HNSW.searchLayer`.  Both queues are seeded with the entry and the
entry is pre-visited.  The final Go extraction loop writes `res[i] = Pop()`
for `i` from `len-1` down to `0`, and since `Pop` removes the last slice
element this returns the `res` buffer in its internal order — hence the
direct `map` over the loop's result. -/
def searchLayer (nodes : List (String × HNSWNode)) (dist : List F32 → List F32 → F32)
    (entry : Option String) (query : List F32) (ef : Int) (level : Nat) : List String :=
  match entry with
  | none => []
  | some eid =>
    match lookupN nodes eid with
    | none => []
    | some en =>
      let d0 := dist en.vector query
      (slLoop nodes dist query ef level (nodes.length + 1)
        [eid] [⟨eid, d0⟩] [⟨eid, d0⟩]).map (fun nd => nd.id)

/-- The level sequence `[hi, hi-1, …, lo]` (empty when `hi < lo`); all
levels used by the index are non-negative. -/
def levelsDown (hi lo : Int) : List Nat :=
  (List.range (hi - lo + 1).toNat).map (fun i => (hi - (i : Int)).toNat)

/-- The greedy upper-level descent shared by `Add`, `Search` and
`SearchWithFilter`: at each level run `searchLayer` with `ef = 1` and move
the entry to the best result when one exists. -/
def descendLevels (nodes : List (String × HNSWNode)) (dist : List F32 → List F32 → F32)
    (query : List F32) : List Nat → Option String → Option String
  | [], ep => ep
  | l :: ls, ep =>
    let res := searchLayer nodes dist ep query 1 l
    descendLevels nodes dist query ls
      (match res.head? with
       | some x => some x
       | none => ep)

/-- `HNSW.Search`: empty when the entry point is absent; `ef = max(k,
efSearch)`; greedy descent to level 1; beam search at level 0; then convert
the first `min(k, len)` results, skipping nodes flagged deleted and negating
the score for the IP metric. -/
def hnswSearch (h : HNSW) (query : List F32) (k : Int) : List SearchResult :=
  match h.entryPoint with
  | none => []
  | some _ =>
    let k := if k ≤ 0 then 10 else k
    let ef := if k < h.efSearch then h.efSearch else k
    let ep := descendLevels h.nodes h.dist query (levelsDown h.maxLevel 1) h.entryPoint
    let results := searchLayer h.nodes h.dist ep query ef 0
    (results.take (min k.toNat results.length)).filterMap (fun rid =>
      match lookupN h.nodes rid with
      | none => none
      | some node =>
        if node.deleted then none
        else
          let d := h.dist query node.vector
          some ⟨rid, if h.metric = MetricType.ip then -d else d⟩)

/-- The "filter and convert" loop of `HNSW.SearchWithFilter`: keep the
present, non-deleted nodes passing the metadata predicate, scoring each
(negated for IP). -/
def filterResults (h : HNSW) (query : List F32)
    (filter : Option (List (String × String) → Bool)) (results : List String) :
    List SearchResult :=
  results.filterMap (fun rid =>
    match lookupN h.nodes rid with
    | none => none
    | some node =>
      if node.deleted then none
      else if (match filter with
               | some f => !(f node.metadata)
               | none => false) then none
      else
        let d := h.dist query node.vector
        some (⟨rid, if h.metric = MetricType.ip then -d else d⟩ : SearchResult))

/-- `HNSW.SearchWithFilter`: like `Search` with initial `ef = max(2k,
efSearch)`, filtering by the metadata predicate (and the deleted flag)
before the final sort-and-truncate, which only runs when more than `k`
results survive. -/
def hnswSearchWithFilter (h : HNSW) (query : List F32) (k : Int)
    (filter : Option (List (String × String) → Bool)) : List SearchResult :=
  match h.entryPoint with
  | none => []
  | some _ =>
    let k := if k ≤ 0 then 10 else k
    let ef := if k * 2 < h.efSearch then h.efSearch else k * 2
    let ep := descendLevels h.nodes h.dist query (levelsDown h.maxLevel 1) h.entryPoint
    let results := searchLayer h.nodes h.dist ep query ef 0
    let filtered := filterResults h query filter results
    if filtered = [] then []
    else if (filtered.length : Int) > k then
      (if h.metric = MetricType.ip then
        goSwapSort ⟨"", 0⟩ (fun a b => a.score < b.score) filtered
      else
        goSwapSort ⟨"", 0⟩ (fun a b => a.score > b.score) filtered).take k.toNat
    else filtered

/-- `HNSW.Add` with the level draw as an explicit oracle parameter.  The Go
code allocates the node and installs edges through pointers before the
final `h.nodes[id] = node`; the model inserts the node into the arena up
front, which is observably identical because no traversal can reach the
new node before its first edges exist (edges at level `l` are installed
only after the level-`l` `searchLayer` has run, and are invisible to the
lower levels that follow). -/
def hnswAdd (h : HNSW) (id : String) (vector : List F32)
    (metadata : List (String × String)) (levelDraw : Nat) : HNSW :=
  if (lookupN h.nodes id).isSome then
    let upd := modNode h.nodes id (fun n => { n with vector := vector, metadata := metadata })
    { h with nodes := upd }
  else
    let level := if levelDraw > 32 then 32 else levelDraw
    let node := newHNSWNode id vector metadata level
    if h.entryPoint.isNone then
      { h with entryPoint := some id, maxLevel := (level : Int),
               nodes := h.nodes ++ [(id, node)], count := h.count + 1 }
    else
      let nodes0 := h.nodes ++ [(id, node)]
      let ep0 := descendLevels nodes0 h.dist vector
        (levelsDown h.maxLevel ((level : Int) + 1)) h.entryPoint
      let inserted :=
        (levelsDown (min (level : Int) h.maxLevel) 0).foldl
          (fun (st : List (String × HNSWNode) × Option String) l =>
            let candidates := searchLayer st.1 h.dist st.2 vector h.efConstruction l
            let nodes' := candidates.foldl
              (fun ns cid =>
                if cid == id then ns
                else
                  pruneNeighbors
                    (addEdge (pruneNeighbors (addEdge ns id cid l) id l h.m h.dist)
                      cid id l)
                    cid l h.m h.dist)
              st.1
            (nodes',
             match candidates.head? with
             | some cc => some cc
             | none => st.2))
          (nodes0, ep0)
      let epMax :=
        if (level : Int) > h.maxLevel then (some id, (level : Int))
        else (h.entryPoint, h.maxLevel)
      { h with nodes := inserted.1, entryPoint := epMax.1, maxLevel := epMax.2,
               count := h.count + 1 }

/-- `HNSW.Delete`: logical deletion — set the flag and decrement the count
(without checking whether the node was already flagged). -/
def hnswDelete (h : HNSW) (id : String) : HNSW :=
  match lookupN h.nodes id with
  | none => h
  | some _ =>
    { h with nodes := modNode h.nodes id (fun n => { n with deleted := true }),
             count := h.count - 1 }

/-- `HNSW.Len`. -/
def hnswLen (h : HNSW) : Int := h.count

/-- `HNSW.Clear`. -/
def hnswClear (h : HNSW) : HNSW :=
  { h with nodes := [], entryPoint := none, maxLevel := -1, count := 0 }

/-- The mutating operations of the index, for temporal claims; the level
draw of `add` is the oracle for `getLevel`. -/
inductive HOp where
  | add (id : String) (vector : List F32) (metadata : List (String × String)) (levelDraw : Nat)
  | del (id : String)
  | clear

/-- Apply one operation. -/
def applyHOp (h : HNSW) : HOp → HNSW
  | .add id v md l => hnswAdd h id v md l
  | .del id => hnswDelete h id
  | .clear => hnswClear h

/-- Apply a sequence of operations, oldest first. -/
def applyHOps (h : HNSW) (ops : List HOp) : HNSW :=
  ops.foldl applyHOp h

/-! ## `searchLayer` ordering (claim C3) -/

/-- The C3 graph: a level-0 chain `E – A – B` with bidirectional edges and
IP distances 1, 3, 2 to the query `[-1]` (vectors `[1]`, `[3]`, `[2]`). -/
def c3Nodes : List (String × HNSWNode) :=
  [("E", ⟨"E", [1], [], [["A"]], false⟩),
   ("A", ⟨"A", [3], [], [["E", "B"]], false⟩),
   ("B", ⟨"B", [2], [], [["A"]], false⟩)]

/-- The full C3 index state around `c3Nodes` (metric IP, entry `E`). -/
def c3Index : HNSW :=
  { m := 16, efConstruction := 200, efSearch := 50, metric := MetricType.ip,
    dist := IPDistance, nodes := c3Nodes, entryPoint := some "E",
    maxLevel := 0, count := 3 }

/-- The distances of `searchLayer`'s results to the query, in result order. -/
def c3Dists : List F32 :=
  (searchLayer c3Nodes IPDistance (some "E") [-1] 10 0).map
    (fun i =>
      match lookupN c3Nodes i with
      | some n => IPDistance n.vector [-1]
      | none => 0)

/-- **C3.**  Because `nodeHeap`/`nodeHeapDesc` are used without
`container/heap` (their `Pop` removes the most recently pushed element, not
the nearest), `searchLayer` returns `[E, A, B]` with distances `[1, 3, 2]`
— not ascending — and `Search` surfaces the IP scores `[-1, -3, -2]` — not
descending — on the chain graph `c3Index`, contradicting the source's own
"min-heap"/"Get the nearest candidate node" comments. -/
theorem c3_searchLayer_not_sorted :
    searchLayer c3Nodes IPDistance (some "E") [-1] 10 0 = ["E", "A", "B"] ∧
    c3Dists = [1, 3, 2] ∧
    ¬ List.Sorted (· ≤ ·) c3Dists ∧
    hnswSearch c3Index [-1] 3 = [⟨"E", -1⟩, ⟨"A", -3⟩, ⟨"B", -2⟩] ∧
    ¬ List.Sorted (· ≥ ·) ((hnswSearch c3Index [-1] 3).map (fun r => r.score)) := by
  decide

/-! ## Double deletion and `Len` (claim C10) -/

/-- Look up a node after `modNode`: the modified map at `id`, untouched
elsewhere. -/
lemma lookupN_modNode (nodes : List (String × HNSWNode)) (id y : String)
    (f : HNSWNode → HNSWNode) :
    lookupN (modNode nodes id f) y =
      if y = id then (lookupN nodes y).map f else lookupN nodes y := by
  unfold lookupN modNode
  rw [List.find?_map]
  have hpred : ((fun p => p.1 == y) ∘ fun (p : String × HNSWNode) =>
      if p.1 == id then (p.1, f p.2) else p) = (fun p => p.1 == y) := by
    funext q
    by_cases hq : q.1 = id
    · simp [hq]
    · simp [beq_iff_eq, hq]
  rw [hpred]
  cases hfind : nodes.find? (fun p => p.1 == y) with
  | none => simp
  | some q =>
    have hq' := List.find?_some hfind
    have hqy : q.1 = y := by simpa [beq_iff_eq] using hq'
    by_cases hyid : y = id
    · have hqidP : q.1 = id := hqy.trans hyid
      simp [hyid, hqidP]
    · have hqidP : ¬ q.1 = id := fun hh => hyid (by rw [← hqy, hh])
      simp [hyid, beq_iff_eq, hqidP]

/-- The concrete C10 state: one node `"a"` inserted, then deleted twice. -/
def c10State : HNSW :=
  hnswDelete (hnswDelete (hnswAdd (newHNSW 16 200 50 MetricType.ip IPDistance)
    "a" [1] [] 0) "a") "a"

/-- **C10.**  `Delete` decrements the count without checking the deleted
flag: deleting a present id twice decreases `Len` by 2; concretely, after
`Add("a")` and two `Delete("a")` calls `Len` is `-1` while the graph holds
no non-deleted node, so `Len` is not the number of non-deleted nodes. -/
theorem c10_double_delete (h : HNSW) (id : String) (n : HNSWNode)
    (hfound : lookupN h.nodes id = some n) :
    hnswLen (hnswDelete (hnswDelete h id) id) = hnswLen h - 2 ∧
    hnswLen c10State = -1 ∧
    (c10State.nodes.filter (fun p => !p.2.deleted)).length = 0 := by
  refine ⟨?_, by decide, by decide⟩
  unfold hnswDelete
  rw [hfound]
  dsimp only
  rw [lookupN_modNode, if_pos rfl, hfound]
  dsimp only [Option.map]
  show (h.count - 1) - 1 = h.count - 2
  omega

/-- Witness for C10: the double delete applied to the state holding the
single inserted node `"a"`. -/
theorem c10_double_delete_witness :
    hnswLen (hnswDelete (hnswDelete
        (hnswAdd (newHNSW 16 200 50 MetricType.ip IPDistance) "a" [1] [] 0) "a") "a") =
      hnswLen (hnswAdd (newHNSW 16 200 50 MetricType.ip IPDistance) "a" [1] [] 0) - 2 :=
  (c10_double_delete (hnswAdd (newHNSW 16 200 50 MetricType.ip IPDistance) "a" [1] [] 0)
    "a" ⟨"a", [1], [], [[]], false⟩ (by decide)).1

/-! ## Preservation machinery for the graph claims (C5, C6) -/

lemma foldlPreserves {α β : Type} {P : β → Prop} (f : β → α → β) :
    ∀ (l : List α) (init : β), P init → (∀ b a, a ∈ l → P b → P (f b a)) →
      P (l.foldl f init)
  | [], init, h0, _ => h0
  | a :: l, init, h0, hstep =>
    foldlPreserves f l (f init a) (hstep init a (List.mem_cons_self _ _) h0)
      (fun b x hx hb => hstep b x (List.mem_cons_of_mem _ hx) hb)

lemma getD_mem {α : Type} {l : List α} {i : Nat} {dflt : α} (hi : i < l.length) :
    l.getD i dflt ∈ l := by
  rw [List.getD_eq_getElem l dflt hi]
  exact List.getElem_mem hi

lemma swapAt_length {α : Type} (dflt : α) (l : List α) (i j : Nat) :
    (swapAt dflt l i j).length = l.length := by
  simp [swapAt]

lemma swapAt_mem {α : Type} {dflt : α} {l : List α} {i j : Nat}
    (hi : i < l.length) (hj : j < l.length) :
    ∀ x ∈ swapAt dflt l i j, x ∈ l := by
  intro x hx
  unfold swapAt at hx
  rcases List.mem_or_eq_of_mem_set hx with hx | hx
  · rcases List.mem_or_eq_of_mem_set hx with hx | hx
    · exact hx
    · exact hx ▸ getD_mem hj
  · exact hx ▸ getD_mem hi

lemma goSwapSort_shape {α : Type} (dflt : α) (p : α → α → Bool) (l : List α) :
    (goSwapSort dflt p l).length = l.length ∧ ∀ x ∈ goSwapSort dflt p l, x ∈ l := by
  unfold goSwapSort
  refine foldlPreserves (P := fun (acc : List α) => acc.length = l.length ∧ ∀ x ∈ acc, x ∈ l)
    _ _ _ ⟨rfl, fun x hx => hx⟩ ?_
  · intro acc i hi hacc
    refine foldlPreserves (P := fun (acc : List α) => acc.length = l.length ∧ ∀ x ∈ acc, x ∈ l)
      _ _ _ hacc ?_
    · intro acc2 j hj hacc2
      split
      · next hcond =>
        have hjlen : j < acc2.length := by
          rw [hacc2.1]
          exact List.mem_range.1 hj
        have hilen : i < acc2.length := by
          rw [hacc2.1]
          exact List.mem_range.1 hi
        constructor
        · rw [swapAt_length, hacc2.1]
        · intro x hx
          exact hacc2.2 x (swapAt_mem hilen hjlen x hx)
      · exact hacc2

/-- The shape of an arena entry: key, deleted flag, and level (as the
neighbor-array length).  Edge installation and pruning never change it. -/
def nodeShape (p : String × HNSWNode) : String × Bool × Nat :=
  (p.1, p.2.deleted, p.2.neighbors.length)

/-- Two arenas with the same node shapes (same keys in the same order, same
deleted flags, same levels). -/
def shapeEq (a b : List (String × HNSWNode)) : Prop :=
  b.map nodeShape = a.map nodeShape

lemma shapeEq_refl (a : List (String × HNSWNode)) : shapeEq a a := rfl

lemma shapeEq_trans {a b c : List (String × HNSWNode)}
    (hab : shapeEq a b) (hbc : shapeEq b c) : shapeEq a c :=
  hbc.trans hab

lemma modNode_shapeEq (nodes : List (String × HNSWNode)) (id : String)
    {f : HNSWNode → HNSWNode}
    (hf : ∀ n, (f n).deleted = n.deleted ∧ (f n).neighbors.length = n.neighbors.length) :
    shapeEq nodes (modNode nodes id f) := by
  unfold shapeEq modNode
  rw [List.map_map]
  apply List.map_congr_left
  intro p _
  by_cases hp : (p.1 == id) = true
  · simp only [Function.comp, hp, if_pos]
    unfold nodeShape
    rw [(hf p.2).1, (hf p.2).2]
  · simp [Function.comp, hp]

lemma addEdge_shapeEq (nodes : List (String × HNSWNode)) (a b : String) (level : Nat) :
    shapeEq nodes (addEdge nodes a b level) := by
  unfold addEdge
  apply modNode_shapeEq
  intro n
  split
  · exact ⟨rfl, rfl⟩
  · constructor
    · rfl
    · simp

lemma pruneNeighbors_shapeEq (nodes : List (String × HNSWNode)) (nid : String)
    (level : Nat) (m : Int) (dist : List F32 → List F32 → F32) :
    shapeEq nodes (pruneNeighbors nodes nid level m dist) := by
  unfold pruneNeighbors
  cases lookupN nodes nid with
  | none => exact shapeEq_refl nodes
  | some node =>
    dsimp only
    split
    · exact shapeEq_refl nodes
    · split
      · exact shapeEq_refl nodes
      · apply modNode_shapeEq
        intro n
        constructor
        · rfl
        · simp

lemma shapeEq_lookup {a b : List (String × HNSWNode)} (h : shapeEq a b) :
    ∀ y, (lookupN b y).map (fun n => (n.deleted, n.neighbors.length)) =
      (lookupN a y).map (fun n => (n.deleted, n.neighbors.length)) := by
  intro y
  induction a generalizing b with
  | nil =>
    have hb : b = [] := by
      have h' : b.map nodeShape = [] := by simpa [shapeEq, nodeShape] using h
      exact List.map_eq_nil_iff.1 h'
    rw [hb]
  | cons p rest ih =>
    unfold shapeEq at h
    cases b with
    | nil => simp at h
    | cons q brest =>
      simp only [List.map_cons, List.cons.injEq] at h
      obtain ⟨hq, hrest⟩ := h
      simp only [nodeShape, Prod.mk.injEq] at hq
      obtain ⟨hkey, hdel, hlen⟩ := hq
      by_cases hpy : p.1 = y
      · simp [lookupN, List.find?_cons, beq_iff_eq, hkey, hpy, hdel, hlen]
      · have hqy : ¬ q.1 = y := by rw [hkey]; exact hpy
        have ih' := ih hrest
        simp [lookupN, List.find?_cons, beq_iff_eq, hqy, hpy] at ih' ⊢
        exact ih'

lemma shapeEq_keys {a b : List (String × HNSWNode)} (h : shapeEq a b) :
    b.map (fun p => p.1) = a.map (fun p => p.1) := by
  have := congrArg (List.map (fun t : String × Bool × Nat => t.1)) h
  simpa [List.map_map, Function.comp, nodeShape] using this

lemma shapeEq_mem {a b : List (String × HNSWNode)} (h : shapeEq a b) :
    ∀ p ∈ b, ∃ p' ∈ a, nodeShape p = nodeShape p' := by
  intro p hp
  have hmem : nodeShape p ∈ b.map nodeShape := List.mem_map_of_mem _ hp
  rw [h] at hmem
  obtain ⟨p', hp', heq⟩ := List.mem_map.1 hmem
  exact ⟨p', hp', heq.symm⟩

lemma lookupN_append_ne {ns : List (String × HNSWNode)} {idNew y : String}
    {n : HNSWNode} (hne : y ≠ idNew) :
    lookupN (ns ++ [(idNew, n)]) y = lookupN ns y := by
  unfold lookupN
  rw [List.find?_append]
  cases hfind : ns.find? (fun p => p.1 == y) with
  | some q => simp
  | none =>
    simp only [Option.none_or]
    have hbeq : (idNew == y) = false := beq_eq_false_iff_ne.2 (fun h => hne h.symm)
    simp [List.find?_cons, hbeq]

/-- The per-level edge-installation fold of `hnswAdd` never changes node
shapes (keys, deleted flags, levels): it only rewires neighbor lists. -/
lemma insertLevelsFold_shapeEq (dist : List F32 → List F32 → F32) (efc m : Int)
    (id : String) (vector : List F32) (levels : List Nat)
    (nodes0 : List (String × HNSWNode)) (ep0 : Option String) :
    shapeEq nodes0
      (levels.foldl
        (fun (st : List (String × HNSWNode) × Option String) l =>
          let candidates := searchLayer st.1 dist st.2 vector efc l
          let nodes' := candidates.foldl
            (fun ns cid =>
              if cid == id then ns
              else
                pruneNeighbors
                  (addEdge (pruneNeighbors (addEdge ns id cid l) id l m dist)
                    cid id l)
                  cid l m dist)
            st.1
          (nodes',
           match candidates.head? with
           | some cc => some cc
           | none => st.2))
        (nodes0, ep0)).1 := by
  refine foldlPreserves
    (P := fun (st : List (String × HNSWNode) × Option String) => shapeEq nodes0 st.1)
    _ _ _ (shapeEq_refl nodes0) ?_
  intro st l _ hst
  dsimp only
  refine foldlPreserves
    (P := fun (ns : List (String × HNSWNode)) => shapeEq nodes0 ns) _ _ _ hst ?_
  intro ns cid _ hns
  split
  · exact hns
  · exact shapeEq_trans hns
      (shapeEq_trans (addEdge_shapeEq _ _ _ _)
        (shapeEq_trans (pruneNeighbors_shapeEq _ _ _ _ _)
          (shapeEq_trans (addEdge_shapeEq _ _ _ _)
            (pruneNeighbors_shapeEq _ _ _ _ _))))

/-- `Add` of a *different* id never changes the deleted flag (nor the
presence) of `y`'s node. -/
lemma hnswAdd_flag_other {h : HNSW} {idNew : String} {v : List F32}
    {md : List (String × String)} {ld : Nat} {y : String} (hne : y ≠ idNew) :
    (lookupN (hnswAdd h idNew v md ld).nodes y).map (fun n => n.deleted) =
      (lookupN h.nodes y).map (fun n => n.deleted) := by
  unfold hnswAdd
  by_cases hsome : (lookupN h.nodes idNew).isSome = true
  · rw [if_pos hsome]
    dsimp only
    rw [lookupN_modNode, if_neg hne]
  · rw [if_neg hsome]
    dsimp only
    by_cases hep : h.entryPoint.isNone = true
    · rw [if_pos hep]
      dsimp only
      rw [lookupN_append_ne hne]
    · rw [if_neg hep]
      dsimp only
      have hse := insertLevelsFold_shapeEq h.dist h.efConstruction h.m idNew v
        (levelsDown (min ((if ld > 32 then 32 else ld) : Nat) h.maxLevel) 0)
        (h.nodes ++ [(idNew, newHNSWNode idNew v md (if ld > 32 then 32 else ld))])
        (descendLevels (h.nodes ++ [(idNew, newHNSWNode idNew v md (if ld > 32 then 32 else ld))])
          h.dist v (levelsDown h.maxLevel (((if ld > 32 then 32 else ld) : Nat) + 1))
          h.entryPoint)
      have hl := shapeEq_lookup hse y
      have hflag := congrArg (Option.map (fun t : Bool × Nat => t.1)) hl
      simp only [Option.map_map] at hflag
      have happ := @lookupN_append_ne h.nodes idNew y
        (newHNSWNode idNew v md (if ld > 32 then 32 else ld)) hne
      calc (lookupN _ y).map (fun n => n.deleted)
          = (lookupN (h.nodes ++ [(idNew, newHNSWNode idNew v md (if ld > 32 then 32 else ld))]) y).map
              (fun n => n.deleted) := hflag
        _ = (lookupN h.nodes y).map (fun n => n.deleted) := by rw [happ]

/-! ## Delete-visibility (claim C5) -/

/-- `id`'s node is either absent from the arena or flagged deleted. -/
def deletedOrAbsent (h : HNSW) (id : String) : Prop :=
  ∀ n, lookupN h.nodes id = some n → n.deleted = true

lemma deletedOrAbsent_hnswDelete_self (h : HNSW) (id : String) :
    deletedOrAbsent (hnswDelete h id) id := by
  intro n hn
  unfold hnswDelete at hn
  cases hl : lookupN h.nodes id with
  | none =>
    rw [hl] at hn
    dsimp only at hn
    rw [hl] at hn
    simp at hn
  | some n0 =>
    rw [hl] at hn
    dsimp only at hn
    rw [lookupN_modNode, if_pos rfl, hl] at hn
    have hfn : ({ n0 with deleted := true } : HNSWNode) = n := by
      simpa using hn
    rw [← hfn]

lemma deletedOrAbsent_hnswDelete (h : HNSW) (idDel id : String)
    (hda : deletedOrAbsent h id) :
    deletedOrAbsent (hnswDelete h idDel) id := by
  intro n hn
  unfold hnswDelete at hn
  cases hl : lookupN h.nodes idDel with
  | none => rw [hl] at hn; exact hda n hn
  | some n0 =>
    rw [hl] at hn
    dsimp only at hn
    rw [lookupN_modNode] at hn
    by_cases hid : id = idDel
    · rw [if_pos hid] at hn
      cases hl2 : lookupN h.nodes id with
      | none => rw [hl2] at hn; simp at hn
      | some n1 =>
        rw [hl2] at hn
        have hfn : ({ n1 with deleted := true } : HNSWNode) = n := by
          simpa using hn
        rw [← hfn]
    · rw [if_neg hid] at hn
      exact hda n hn

lemma deletedOrAbsent_hnswAdd (h : HNSW) (idNew id : String) (v : List F32)
    (md : List (String × String)) (ld : Nat) (hda : deletedOrAbsent h id)
    (hne : id ≠ idNew) :
    deletedOrAbsent (hnswAdd h idNew v md ld) id := by
  intro n hn
  have hflag := @hnswAdd_flag_other h idNew v md ld id hne
  rw [hn] at hflag
  cases hl : lookupN h.nodes id with
  | none => rw [hl] at hflag; simp at hflag
  | some n0 =>
    rw [hl] at hflag
    simp at hflag
    rw [hflag]
    exact hda n0 hl

lemma deletedOrAbsent_hnswClear (h : HNSW) (id : String) :
    deletedOrAbsent (hnswClear h) id := by
  intro n hn
  simp [hnswClear, lookupN] at hn

lemma deletedOrAbsent_applyHOps (h : HNSW) (id : String) (ops : List HOp)
    (hda : deletedOrAbsent h id)
    (hops : ∀ op ∈ ops, ∀ v md l, op ≠ HOp.add id v md l) :
    deletedOrAbsent (applyHOps h ops) id := by
  induction ops generalizing h with
  | nil => exact hda
  | cons op rest ih =>
    rw [applyHOps, List.foldl_cons]
    apply ih
    · cases op with
      | add idNew v md l =>
        have hne : id ≠ idNew := by
          intro hcontra
          exact hops _ (List.mem_cons_self _ _) v md l (by rw [hcontra])
        exact deletedOrAbsent_hnswAdd h idNew id v md l hda hne
      | del idDel => exact deletedOrAbsent_hnswDelete h idDel id hda
      | clear => exact deletedOrAbsent_hnswClear h id
    · intro op' hop' v md l
      exact hops op' (List.mem_cons_of_mem _ hop') v md l

/-- Members of `Search`'s result come from present, non-deleted nodes. -/
lemma hnswSearch_mem {h : HNSW} {q : List F32} {k : Int} {r : SearchResult}
    (hr : r ∈ hnswSearch h q k) :
    ∃ n, lookupN h.nodes r.id = some n ∧ n.deleted = false := by
  unfold hnswSearch at hr
  cases hep : h.entryPoint with
  | none => rw [hep] at hr; simp at hr
  | some e =>
    rw [hep] at hr
    dsimp only at hr
    obtain ⟨rid, _, hf⟩ := List.mem_filterMap.1 hr
    cases hlk : lookupN h.nodes rid with
    | none => rw [hlk] at hf; simp at hf
    | some node =>
      rw [hlk] at hf
      dsimp only at hf
      by_cases hdel : node.deleted = true
      · rw [if_pos hdel] at hf; simp at hf
      · rw [if_neg hdel] at hf
        simp only [Option.some.injEq] at hf
        rw [← hf]
        exact ⟨node, hlk, by simpa using hdel⟩

/-- Members of `SearchWithFilter`'s result come from present, non-deleted
nodes (through the optional sort-and-truncate). -/
lemma filterResults_mem {h : HNSW} {q : List F32}
    {flt : Option (List (String × String) → Bool)} {l : List String}
    {r : SearchResult} (hr : r ∈ filterResults h q flt l) :
    ∃ n, lookupN h.nodes r.id = some n ∧ n.deleted = false := by
  unfold filterResults at hr
  obtain ⟨rid, _, hf⟩ := List.mem_filterMap.1 hr
  cases hlk : lookupN h.nodes rid with
  | none => rw [hlk] at hf; simp at hf
  | some node =>
    rw [hlk] at hf
    dsimp only at hf
    by_cases hdel : node.deleted = true
    · rw [if_pos hdel] at hf; simp at hf
    · rw [if_neg hdel] at hf
      cases flt with
      | none =>
        rw [if_neg (by simp)] at hf
        simp only [Option.some.injEq] at hf
        rw [← hf]
        exact ⟨node, hlk, by simpa using hdel⟩
      | some f =>
        by_cases hfl : (!(f node.metadata)) = true
        · rw [if_pos hfl] at hf; simp at hf
        · rw [if_neg hfl] at hf
          simp only [Option.some.injEq] at hf
          rw [← hf]
          exact ⟨node, hlk, by simpa using hdel⟩

set_option maxHeartbeats 1000000 in
/-- Members of `SearchWithFilter`'s result come from present, non-deleted
nodes (through the optional sort-and-truncate). -/
lemma hnswSearchWithFilter_mem {h : HNSW} {q : List F32} {k : Int}
    {flt : Option (List (String × String) → Bool)} {r : SearchResult}
    (hr : r ∈ hnswSearchWithFilter h q k flt) :
    ∃ n, lookupN h.nodes r.id = some n ∧ n.deleted = false := by
  unfold hnswSearchWithFilter at hr
  cases hep : h.entryPoint with
  | none => rw [hep] at hr; simp at hr
  | some e =>
    rw [hep] at hr
    dsimp only at hr
    repeat' split at hr
    all_goals
      first
        | exact absurd hr (List.not_mem_nil r)
        | exact filterResults_mem hr
        | exact filterResults_mem
            ((goSwapSort_shape ⟨"", 0⟩ _ _).2 r (List.mem_of_mem_take hr))

/-- **C5.**  After `Delete(id)`, no later `Search` or `SearchWithFilter`
ever returns `id`, provided no intervening `Add` re-inserts that id: the
deleted flag (or outright absence after `Clear`) is preserved by every
other operation, and both search paths skip flagged nodes. -/
theorem c5_delete_visibility (h : HNSW) (id : String) (ops : List HOp)
    (hops : ∀ op ∈ ops, ∀ v md l, op ≠ HOp.add id v md l)
    (q : List F32) (k : Int) (flt : Option (List (String × String) → Bool))
    (r : SearchResult) :
    (r ∈ hnswSearch (applyHOps (hnswDelete h id) ops) q k → r.id ≠ id) ∧
    (r ∈ hnswSearchWithFilter (applyHOps (hnswDelete h id) ops) q k flt → r.id ≠ id) := by
  have hda := deletedOrAbsent_applyHOps (hnswDelete h id) id ops
    (deletedOrAbsent_hnswDelete_self h id) hops
  constructor
  · intro hmem heq
    obtain ⟨n, hl, hfalse⟩ := hnswSearch_mem hmem
    rw [heq] at hl
    simp [hda n hl] at hfalse
  · intro hmem heq
    obtain ⟨n, hl, hfalse⟩ := hnswSearchWithFilter_mem hmem
    rw [heq] at hl
    simp [hda n hl] at hfalse

/-- A two-node index (`"a"`, `"b"` at level 0) for the C5 witness. -/
def c5State : HNSW :=
  hnswAdd (hnswAdd (newHNSW 16 200 50 MetricType.ip IPDistance) "a" [1] [] 0)
    "b" [2] [] 0

/-- Witness for C5: delete `"a"`, then delete `"b"`; neither search path
may return `"a"`. -/
theorem c5_delete_visibility_witness :
    ((⟨"a", -1⟩ : SearchResult) ∈
        hnswSearch (applyHOps (hnswDelete c5State "a") [HOp.del "b"]) [1] 2 →
      (⟨"a", -1⟩ : SearchResult).id ≠ "a") ∧
    ((⟨"a", -1⟩ : SearchResult) ∈
        hnswSearchWithFilter (applyHOps (hnswDelete c5State "a") [HOp.del "b"]) [1] 2 none →
      (⟨"a", -1⟩ : SearchResult).id ≠ "a") :=
  c5_delete_visibility c5State "a" [HOp.del "b"]
    (fun op hop v md l => by
      rcases List.mem_singleton.1 hop with rfl
      exact fun hcontra => HOp.noConfusion hcontra)
    [1] 2 none ⟨"a", -1⟩

/-! ## The entry-point invariant (claim C6) -/

lemma lookupN_append_self {ns : List (String × HNSWNode)} {id : String}
    {n : HNSWNode} (hnone : lookupN ns id = none) :
    lookupN (ns ++ [(id, n)]) id = some n := by
  unfold lookupN at hnone ⊢
  rw [List.find?_append]
  cases hfind : ns.find? (fun p => p.1 == id) with
  | some q => rw [hfind] at hnone; simp at hnone
  | none => simp [List.find?_cons]

lemma shapeEq_length {a b : List (String × HNSWNode)} (h : shapeEq a b) :
    b.length = a.length := by
  have := congrArg List.length h
  simpa using this

lemma shapeEq_lookup_len {a b : List (String × HNSWNode)} (h : shapeEq a b) (y : String) :
    (lookupN b y).map (fun n => n.neighbors.length) =
      (lookupN a y).map (fun n => n.neighbors.length) := by
  have := congrArg (Option.map (fun t : Bool × Nat => t.2)) (shapeEq_lookup h y)
  simpa [Option.map_map] using this

lemma lookupN_mem {nodes : List (String × HNSWNode)} {y : String} {n : HNSWNode}
    (hl : lookupN nodes y = some n) : ∃ key, (key, n) ∈ nodes := by
  unfold lookupN at hl
  cases hfind : nodes.find? (fun p => p.1 == y) with
  | none => rw [hfind] at hl; simp at hl
  | some q =>
    rw [hfind] at hl
    obtain ⟨a, b⟩ := q
    simp only [Option.map_some', Option.some.injEq] at hl
    subst hl
    exact ⟨a, List.mem_of_find?_eq_some hfind⟩

/-- The entry-point invariant that actually holds: the entry point is
absent iff the arena is empty, and when present it is a stored node of
level `maxLevel`, an upper bound for every node's level — deleted nodes
included. -/
def epInv (h : HNSW) : Prop :=
  (h.entryPoint = none ↔ h.nodes = []) ∧
  (∀ e, h.entryPoint = some e →
    ∃ n, lookupN h.nodes e = some n ∧ (n.neighbors.length : Int) - 1 = h.maxLevel) ∧
  (∀ p ∈ h.nodes, ((p.2.neighbors.length : Int) - 1 ≤ h.maxLevel))

lemma modNode_nil_iff (ns : List (String × HNSWNode)) (id : String)
    (f : HNSWNode → HNSWNode) : modNode ns id f = [] ↔ ns = [] := by
  unfold modNode
  exact List.map_eq_nil_iff

lemma modNode_mem_len {ns : List (String × HNSWNode)} {id : String}
    {f : HNSWNode → HNSWNode}
    (hf : ∀ n, (f n).neighbors.length = n.neighbors.length) :
    ∀ p ∈ modNode ns id f, ∃ p' ∈ ns, p.2.neighbors.length = p'.2.neighbors.length := by
  intro p hp
  unfold modNode at hp
  obtain ⟨p', hp', heq⟩ := List.mem_map.1 hp
  refine ⟨p', hp', ?_⟩
  rw [← heq]
  split
  · exact hf p'.2
  · rfl

/-- Reachable index states: a fresh index followed by any sequence of
`Add`/`Delete`/`Clear` (searches and gets do not mutate the graph). -/
inductive HReach (m efc efs : Int) (metric : MetricType)
    (dist : List F32 → List F32 → F32) : HNSW → Prop where
  | init : HReach m efc efs metric dist (newHNSW m efc efs metric dist)
  | step {h : HNSW} (op : HOp) :
      HReach m efc efs metric dist h → HReach m efc efs metric dist (applyHOp h op)

lemma epInv_hnswDelete {h : HNSW} (hinv : epInv h) (id : String) :
    epInv (hnswDelete h id) := by
  obtain ⟨hiff, hep, hbound⟩ := hinv
  unfold hnswDelete
  cases hl : lookupN h.nodes id with
  | none => exact ⟨hiff, hep, hbound⟩
  | some n0 =>
    dsimp only
    refine ⟨?_, ?_, ?_⟩
    · rw [modNode_nil_iff]
      exact hiff
    · intro e he
      dsimp only at he
      obtain ⟨n, hn, hlen⟩ := hep e he
      dsimp only
      rw [lookupN_modNode]
      by_cases heid : e = id
      · rw [if_pos heid]
        refine ⟨{ n with deleted := true }, ?_, ?_⟩
        · rw [heid] at hn
          rw [heid, hn]
          rfl
        · simpa using hlen
      · rw [if_neg heid]
        exact ⟨n, hn, by simpa using hlen⟩
    · intro p hp
      dsimp only at hp
      dsimp only
      obtain ⟨p', hp', hlen⟩ :=
        modNode_mem_len (f := fun n => { n with deleted := true })
          (fun n => rfl) p hp
      rw [hlen]
      exact hbound p' hp'

lemma epInv_hnswClear (h : HNSW) : epInv (hnswClear h) := by
  refine ⟨by simp [hnswClear], ?_, ?_⟩
  · intro e he
    simp [hnswClear] at he
  · intro p hp
    simp [hnswClear] at hp

lemma epInv_newHNSW (m efc efs : Int) (metric : MetricType)
    (dist : List F32 → List F32 → F32) : epInv (newHNSW m efc efs metric dist) := by
  refine ⟨by simp [newHNSW], ?_, ?_⟩
  · intro e he
    simp [newHNSW] at he
  · intro p hp
    simp [newHNSW] at hp

/-- The entry-point invariant is preserved when a fresh node of level `lvl`
is appended to the arena, the edge-installation fold rewires neighbors
without changing shapes, and the entry point / max level are updated
exactly when `lvl` exceeds the old maximum. -/
lemma epInv_extend {h : HNSW} (hinv : epInv h) {id : String} {nd : HNSWNode}
    (hlnone : lookupN h.nodes id = none)
    {nodes1 : List (String × HNSWNode)}
    (hse : shapeEq (h.nodes ++ [(id, nd)]) nodes1)
    {lvl : Nat} (hnd : nd.neighbors.length = lvl + 1)
    (hepsome : h.entryPoint ≠ none) :
    epInv { h with nodes := nodes1,
                   entryPoint := (if (lvl : Int) > h.maxLevel then (some id, (lvl : Int))
                                  else (h.entryPoint, h.maxLevel)).1,
                   maxLevel := (if (lvl : Int) > h.maxLevel then (some id, (lvl : Int))
                                else (h.entryPoint, h.maxLevel)).2,
                   count := h.count + 1 } := by
  obtain ⟨hiff, hep, hbound⟩ := hinv
  have hlen1 : nodes1.length = h.nodes.length + 1 := by
    rw [shapeEq_length hse]
    simp
  have hne1 : nodes1 ≠ [] := by
    intro hc
    rw [hc] at hlen1
    simp at hlen1
  have hlookupId : ∃ n1, lookupN nodes1 id = some n1 ∧ n1.neighbors.length = lvl + 1 := by
    have hl := shapeEq_lookup_len hse id
    rw [lookupN_append_self hlnone] at hl
    cases hcase : lookupN nodes1 id with
    | none => rw [hcase] at hl; simp at hl
    | some n1 =>
      rw [hcase] at hl
      simp only [Option.map_some', Option.some.injEq] at hl
      exact ⟨n1, rfl, by rw [hl, hnd]⟩
  by_cases hgt : (lvl : Int) > h.maxLevel
  · rw [if_pos hgt]
    refine ⟨?_, ?_, ?_⟩
    · dsimp only
      constructor
      · intro hc; simp at hc
      · intro hc; exact absurd hc hne1
    · intro e he
      dsimp only at he ⊢
      have heid : e = id := by simpa using he.symm
      subst heid
      obtain ⟨n1, hl1, hlen1'⟩ := hlookupId
      exact ⟨n1, hl1, by rw [hlen1']; push_cast; ring⟩
    · intro p hp
      dsimp only at hp ⊢
      obtain ⟨p', hp', hshape⟩ := shapeEq_mem hse p hp
      have hplen : p.2.neighbors.length = p'.2.neighbors.length := by
        have := congrArg (fun t : String × Bool × Nat => t.2.2) hshape
        simpa [nodeShape] using this
      rw [hplen]
      rcases List.mem_append.1 hp' with hold | hnew
      · have := hbound p' hold
        omega
      · have hpeq : p' = (id, nd) := List.mem_singleton.1 hnew
        rw [hpeq]
        dsimp only
        rw [hnd]
        push_cast
        omega
  · rw [if_neg hgt]
    refine ⟨?_, ?_, ?_⟩
    · dsimp only
      constructor
      · intro hc; exact absurd hc hepsome
      · intro hc; exact absurd hc hne1
    · intro e he
      dsimp only at he ⊢
      obtain ⟨n, hn, hlen⟩ := hep e he
      have hneid : e ≠ id := by
        intro hc
        rw [hc, hlnone] at hn
        exact Option.noConfusion hn
      have hl := shapeEq_lookup_len hse e
      rw [lookupN_append_ne hneid, hn] at hl
      cases hcase : lookupN nodes1 e with
      | none => rw [hcase] at hl; simp at hl
      | some n1 =>
        rw [hcase] at hl
        simp only [Option.map_some', Option.some.injEq] at hl
        exact ⟨n1, rfl, by rw [hl]; exact hlen⟩
    · intro p hp
      dsimp only at hp ⊢
      obtain ⟨p', hp', hshape⟩ := shapeEq_mem hse p hp
      have hplen : p.2.neighbors.length = p'.2.neighbors.length := by
        have := congrArg (fun t : String × Bool × Nat => t.2.2) hshape
        simpa [nodeShape] using this
      rw [hplen]
      rcases List.mem_append.1 hp' with hold | hnew
      · exact hbound p' hold
      · have hpeq : p' = (id, nd) := List.mem_singleton.1 hnew
        rw [hpeq]
        dsimp only
        rw [hnd]
        push_cast
        omega

lemma epInv_hnswAdd {h : HNSW} (hinv : epInv h) (id : String) (v : List F32)
    (md : List (String × String)) (ld : Nat) :
    epInv (hnswAdd h id v md ld) := by
  obtain ⟨hiff, hep, hbound⟩ := hinv
  unfold hnswAdd
  by_cases hsome : (lookupN h.nodes id).isSome = true
  · rw [if_pos hsome]
    dsimp only
    refine ⟨?_, ?_, ?_⟩
    · rw [modNode_nil_iff]
      exact hiff
    · intro e he
      dsimp only at he
      obtain ⟨n, hn, hlen⟩ := hep e he
      dsimp only
      rw [lookupN_modNode]
      by_cases heid : e = id
      · rw [if_pos heid]
        refine ⟨{ n with vector := v, metadata := md }, ?_, ?_⟩
        · rw [heid] at hn
          rw [heid, hn]
          rfl
        · simpa using hlen
      · rw [if_neg heid]
        exact ⟨n, hn, by simpa using hlen⟩
    · intro p hp
      dsimp only at hp
      dsimp only
      obtain ⟨p', hp', hlen⟩ :=
        modNode_mem_len (f := fun n => { n with vector := v, metadata := md })
          (fun n => rfl) p hp
      rw [hlen]
      exact hbound p' hp'
  · rw [if_neg hsome]
    dsimp only
    have hlnone : lookupN h.nodes id = none := by
      cases hcase : lookupN h.nodes id with
      | none => rfl
      | some _ => rw [hcase] at hsome; simp at hsome
    by_cases hepn : h.entryPoint.isNone = true
    · rw [if_pos hepn]
      have hnil : h.nodes = [] := hiff.1 (Option.isNone_iff_eq_none.1 hepn)
      try dsimp only
      refine ⟨?_, ?_, ?_⟩
      · constructor
        · intro hc; simp at hc
        · intro hc; simp at hc
      · intro e he
        dsimp only at he ⊢
        have heid : e = id := by simpa using he.symm
        subst heid
        refine ⟨newHNSWNode e v md (if ld > 32 then 32 else ld), ?_, ?_⟩
        · exact lookupN_append_self hlnone
        · simp [newHNSWNode]
      · intro p hp
        dsimp only at hp ⊢
        rw [hnil] at hp
        simp only [List.nil_append, List.mem_singleton] at hp
        rw [hp]
        simp [newHNSWNode]
    · rw [if_neg hepn]
      try dsimp only
      have hepsome : h.entryPoint ≠ none := by
        intro hc
        rw [hc] at hepn
        simp at hepn
      exact epInv_extend ⟨hiff, hep, hbound⟩ hlnone
        (insertLevelsFold_shapeEq h.dist h.efConstruction h.m id v
          (levelsDown (min ((if ld > 32 then 32 else ld : Nat) : Int) h.maxLevel) 0)
          (h.nodes ++ [(id, newHNSWNode id v md (if ld > 32 then 32 else ld))])
          (descendLevels
            (h.nodes ++ [(id, newHNSWNode id v md (if ld > 32 then 32 else ld))])
            h.dist v
            (levelsDown h.maxLevel (((if ld > 32 then 32 else ld : Nat) : Int) + 1))
            h.entryPoint))
        (by simp [newHNSWNode]) hepsome

lemma epInv_applyHOp {h : HNSW} (hinv : epInv h) (op : HOp) :
    epInv (applyHOp h op) := by
  cases op with
  | add id v md l => exact epInv_hnswAdd hinv id v md l
  | del id => exact epInv_hnswDelete hinv id
  | clear => exact epInv_hnswClear h

lemma hReach_epInv {m efc efs : Int} {metric : MetricType}
    {dist : List F32 → List F32 → F32} {h : HNSW}
    (hr : HReach m efc efs metric dist h) : epInv h := by
  induction hr with
  | init => exact epInv_newHNSW m efc efs metric dist
  | step op _ ih => exact epInv_applyHOp ih op

/-- `Search` on an empty arena returns the empty list (whatever the entry
point): the beam can find no node and the conversion loop has nothing. -/
lemma hnswSearch_nodes_nil {h : HNSW} (hnil : h.nodes = []) (q : List F32) (k : Int) :
    hnswSearch h q k = [] := by
  unfold hnswSearch
  cases hep : h.entryPoint with
  | none => rfl
  | some e =>
    dsimp only
    apply List.eq_nil_of_subset_nil
    intro r hr
    obtain ⟨rid, _, hf⟩ := List.mem_filterMap.1 hr
    cases hlk : lookupN h.nodes rid with
    | none => rw [hlk] at hf; simp at hf
    | some node =>
      exfalso
      rw [hnil] at hlk
      simp [lookupN] at hlk

/-- When every node is flagged deleted, `Search` returns the empty list
even though the entry point may still be set. -/
lemma hnswSearch_all_deleted {h : HNSW}
    (hdel : ∀ p ∈ h.nodes, p.2.deleted = true) (q : List F32) (k : Int) :
    hnswSearch h q k = [] := by
  unfold hnswSearch
  cases hep : h.entryPoint with
  | none => rfl
  | some e =>
    dsimp only
    apply List.eq_nil_of_subset_nil
    intro r hr
    obtain ⟨rid, _, hf⟩ := List.mem_filterMap.1 hr
    cases hlk : lookupN h.nodes rid with
    | none => rw [hlk] at hf; simp at hf
    | some node =>
      rw [hlk] at hf
      dsimp only at hf
      obtain ⟨key, hkey⟩ := lookupN_mem hlk
      rw [if_pos (hdel (key, node) hkey)] at hf
      simp at hf

/-- The C6 counterexample state: `Add("a")` then `Delete("a")`. -/
def c6State : HNSW :=
  hnswDelete (hnswAdd (newHNSW 16 200 50 MetricType.ip IPDistance) "a" [1] [] 0) "a"

/-- **C6, counterexample.**  In `c6State` every node is flagged deleted,
yet the entry point is still `some "a"` (a deleted node), not absent: the
claim's "if all nodes are deleted …, entry point is absent" — and with it
"the entry point is the highest-level non-deleted node" — fails, because
`Delete` never clears or reassigns the entry point. -/
theorem c6_counterexample :
    (∀ p ∈ c6State.nodes, p.2.deleted = true) ∧ c6State.entryPoint = some "a" := by
  decide

/-- **C6, amended.**  In every reachable index state: the entry point is
absent exactly when the node arena is empty (at construction and after
`Clear`); when present it is a stored node — possibly flagged deleted —
whose level equals `maxLevel`, which bounds every node's level; `Search`
returns the empty list on an empty arena, and also whenever every node is
flagged deleted, even though the entry point may then still be set. -/
theorem c6_entry_point_amended {m efc efs : Int} {metric : MetricType}
    {dist : List F32 → List F32 → F32} {h : HNSW}
    (hr : HReach m efc efs metric dist h) :
    ((h.entryPoint = none ↔ h.nodes = []) ∧
     (∀ e, h.entryPoint = some e →
       ∃ n, lookupN h.nodes e = some n ∧
         (n.neighbors.length : Int) - 1 = h.maxLevel) ∧
     (∀ p ∈ h.nodes, (p.2.neighbors.length : Int) - 1 ≤ h.maxLevel)) ∧
    (∀ q k, h.nodes = [] → hnswSearch h q k = []) ∧
    (∀ q k, (∀ p ∈ h.nodes, p.2.deleted = true) → hnswSearch h q k = []) :=
  ⟨hReach_epInv hr,
   fun q k hnil => hnswSearch_nodes_nil hnil q k,
   fun q k hdel => hnswSearch_all_deleted hdel q k⟩

/-- Witness for the amended C6, at the concrete reachable state `c6State`
(one insert, one delete). -/
theorem c6_entry_point_amended_witness :
    ((c6State.entryPoint = none ↔ c6State.nodes = []) ∧
     (∀ e, c6State.entryPoint = some e →
       ∃ n, lookupN c6State.nodes e = some n ∧
         (n.neighbors.length : Int) - 1 = c6State.maxLevel) ∧
     (∀ p ∈ c6State.nodes, (p.2.neighbors.length : Int) - 1 ≤ c6State.maxLevel)) ∧
    (∀ q k, c6State.nodes = [] → hnswSearch c6State q k = []) ∧
    (∀ q k, (∀ p ∈ c6State.nodes, p.2.deleted = true) → hnswSearch c6State q k = []) :=
  c6_entry_point_amended
    (@HReach.step 16 200 50 MetricType.ip IPDistance _ (HOp.del "a")
      (@HReach.step 16 200 50 MetricType.ip IPDistance _ (HOp.add "a" [1] [] 0)
        (@HReach.init 16 200 50 MetricType.ip IPDistance)))

/-! ## Index rebuilding and the item collector (claim C7) -/

/-- `FlatSearch.Add`: map assignment `f.items[id] = item` — overwrite in
place when the id exists, append otherwise. -/
def flatAdd (f : FlatSearch) (id : String) (vector : List F32) : FlatSearch :=
  { f with items :=
      if f.items.any (fun it => it.id == id) then
        f.items.map (fun it => if it.id == id then ⟨id, vector⟩ else it)
      else f.items ++ [⟨id, vector⟩] }

/-- `FlatSearch.Clear`. -/
def flatClear (f : FlatSearch) : FlatSearch :=
  { f with items := [] }

/-- `VectorCache` (one shard, `indexType = "flat"`): the index and the
optional externally installed `itemCollector`. -/
structure VectorCache where
  index : FlatSearch
  itemCollector : Option (Unit → List VectorItem)

/-- `VectorCache.collectAllItems` (single shard): the cache exposes no
traversal, so the source returns the empty list ("Simplified handling:
returns an empty list, users need to maintain the vector list
themselves"). -/
def collectAllItems (vc : VectorCache) : List VectorItem := []

/-- `VectorCache.SetItemCollector` (single shard). -/
def setItemCollector (vc : VectorCache) (collector : Unit → List VectorItem) :
    VectorCache :=
  { vc with itemCollector := some collector }

/-- `VectorCache.rebuildIndexFromCache`: clear the index, then re-add every
item of `collectAllItems` — note the source calls `collectAllItems`, never
`GetAllItems`, so the installed collector is not consulted. -/
def rebuildIndexFromCache (vc : VectorCache) : VectorCache :=
  let idx := flatClear vc.index
  let items := collectAllItems vc
  { vc with index := items.foldl (fun ix it => flatAdd ix it.id it.vector) idx }

/-- `VectorCache.BuildIndex` (single shard). -/
def buildIndex (vc : VectorCache) : VectorCache :=
  rebuildIndexFromCache vc

/-- `VectorCache.GetAllItems`: the only consumer of `itemCollector`. -/
def getAllItems (vc : VectorCache) : List VectorItem :=
  match vc.itemCollector with
  | some collector => collector ()
  | none => collectAllItems vc

/-- The C7 store: the index currently holds `a = [1]`, and an item
collector enumerating exactly that item has been installed. -/
def c7Store : VectorCache :=
  setItemCollector
    { index := { items := [⟨"a", [1]⟩], metric := MetricType.ip, dist := IPDistance },
      itemCollector := none }
    (fun _ => [⟨"a", [1]⟩])

/-- **C7.**  With a collector enumerating the stored item installed,
`BuildIndex` still produces an *empty* index — not one containing exactly
the collector's items — because `rebuildIndexFromCache` repopulates from
`collectAllItems` (always empty) and never consults the collector that
`GetAllItems` uses. -/
theorem c7_rebuild_ignores_collector :
    getAllItems c7Store = [⟨"a", [1]⟩] ∧
    (buildIndex c7Store).index.items = [] ∧
    ([] : List VectorItem) ≠ [⟨"a", [1]⟩] := by
  refine ⟨rfl, rfl, by decide⟩
